import Mathlib

/-! hekky-osc: the OSC message codec (`src/src/oscmessage.cpp`)

A shallow embedding of `hekky::osc::OscMessage`.

* Bytes (`char`) are natural numbers; a well-formed byte is below 256.
  `std::string` and `std::vector<char>` are lists of bytes.
* Vector sizes and `int` indices are natural numbers (buffers are far shorter
  than `2^31` bytes, so no index arithmetic of the source wraps).
* Floating point values are represented by their IEEE-754 bit patterns.
* A constructor that raises yields no object (`Except`).  A method is a
  function from the object state to the state after the call together with
  the outcome of the call, so that the state left behind by a raising call is
  explicit.
* `operator[]` or a pointer read past the end is undefined behaviour in the
  source; the embedding reports it as `OscError.OutOfBounds`.  The checked
  accessor `.at()` throws `std::out_of_range`, reported as
  `OscError.OutOfRange`.
-/

namespace hekky.osc

/-- The error taxonomy of the spec (first four) and the two ways a read can
leave a container in the source. -/
inductive OscError
  | InvalidAddress
  | MessageClosed
  | UnsupportedType
  | TruncatedMessage
  | OutOfRange
  | OutOfBounds
  deriving DecidableEq, Repr

/-- Modelled from the spec: the macro `HEKKYOSC_ASSERT` of `asserts.hpp`, which
is not part of the sources at hand.  A failed assertion is a failure of the
enclosing operation, raised with the error kind the spec names for it. -/
def HEKKYOSC_ASSERT (cond : Bool) (err : OscError) : Except OscError Unit :=
  if cond then .ok () else .error err

namespace utils

/-- Modelled from the spec: `utils::GetAlignedStringLength` of `utils.hpp`,
which is not part of the sources at hand.  The aligned length is the smallest
multiple of 4 strictly greater than the raw length. -/
def GetAlignedStringLength (len : Nat) : Nat := (len / 4 + 1) * 4

/-- Modelled from the spec: `utils::IsLittleEndian` of `utils.hpp`; the host
is little-endian. -/
def IsLittleEndian : Bool := true

end utils

/-- The `n` low bytes of `x`, least significant first. -/
def bytesLE : Nat → Nat → List Nat
  | 0, _ => []
  | n + 1, x => x % 256 :: bytesLE n (x / 256)

/-- The number whose bytes, least significant first, are the given list. -/
def ofBytesLE : List Nat → Nat
  | [] => 0
  | b :: bs => b + 256 * ofBytesLE bs

/-- The object representation of an `n`-byte scalar on the host: what the
`char c[n]` member of a union shows of the scalar member. -/
def objectBytes (n x : Nat) : List Nat :=
  if utils.IsLittleEndian then bytesLE n x else (bytesLE n x).reverse

/-- The scalar whose object representation on the host is the given bytes
(`memcpy` into a scalar). -/
def ofObjectBytes (bs : List Nat) : Nat :=
  if utils.IsLittleEndian then ofBytesLE bs else ofBytesLE bs.reverse

namespace utils

/-- Modelled from the spec: `utils::SwapInt32` of `utils.hpp`, byte reversal of
a 32-bit pattern. -/
def SwapInt32 (x : Nat) : Nat := ofBytesLE (bytesLE 4 x).reverse

/-- Modelled from the spec: `utils::SwapInt64` of `utils.hpp`, byte reversal of
a 64-bit pattern. -/
def SwapInt64 (x : Nat) : Nat := ofBytesLE (bytesLE 8 x).reverse

/-- Modelled from the spec: `utils::SwapFloat32` of `utils.hpp`, byte reversal
of the 32-bit pattern of a float. -/
def SwapFloat32 (x : Nat) : Nat := ofBytesLE (bytesLE 4 x).reverse

/-- Modelled from the spec: `utils::SwapFloat64` of `utils.hpp`, byte reversal
of the 64-bit pattern of a double. -/
def SwapFloat64 (x : Nat) : Nat := ofBytesLE (bytesLE 8 x).reverse

end utils

/-- The two's-complement pattern of a signed integer in `w` bits. -/
def toBits (w : Nat) (v : Int) : Nat := (v % (2 : Int) ^ w).toNat

/-- The function `isinf` on the bit pattern of a `float`: exponent all ones,
mantissa zero, either sign. -/
def isinf32 (bits : Nat) : Bool := bits % 2 ^ 31 == 0x7F800000

/-- The function `isinf` on the bit pattern of a `double`. -/
def isinf64 (bits : Nat) : Bool := bits % 2 ^ 63 == 0x7FF0000000000000

/-- A NUL-terminated string read through a `char*` (`std::string(buffer)`,
`strlen`): the bytes before the first NUL.  The memory behind the pointer is
the list; running off its end is undefined behaviour. -/
def cstr : List Nat → Except OscError (List Nat)
  | [] => .error .OutOfBounds
  | b :: rest =>
    if b = 0 then .ok []
    else
      match cstr rest with
      | .ok s => .ok (b :: s)
      | .error e => .error e

/-- The loop `while (data[i] != c) i++;` started at index `i`, where the first
argument is the part of the container from index `i` on.  Leaving the
container raises `err`. -/
def scanTo (c : Nat) (err : OscError) : List Nat → Nat → Except OscError Nat
  | [], _ => .error err
  | b :: rest, i => if b = c then .ok i else scanTo c err rest (i + 1)

/-- One test-and-increment of `while (i % 4 != 0) i++;`. -/
def alignStep (i : Nat) : Nat := if i % 4 ≠ 0 then i + 1 else i

/-- The loop `while (i % 4 != 0) i++;`: at most three increments. -/
def alignLoop (i : Nat) : Nat := alignStep (alignStep (alignStep i))

/-- The state of an `OscMessage` object: the four data members. -/
structure OscMessage where
  m_readonly : Bool
  m_address : List Nat
  m_type : List Nat
  m_data : List Nat
  deriving DecidableEq, Repr

/-- The state after a method call, and the outcome of the call: the value
returned, or the error raised. -/
abbrev Call (α : Type) := OscMessage × Except OscError α

namespace OscMessage

/-- The constructor `OscMessage::OscMessage(const std::string& address)`. -/
def OscMessage_address (address : List Nat) : Except OscError OscMessage :=
  match HEKKYOSC_ASSERT (decide (address.length > 1)) .InvalidAddress with
  | .error e => .error e
  | .ok _ =>
    match HEKKYOSC_ASSERT (address.head? == some 47) .InvalidAddress with
    | .error e => .error e
    | .ok _ =>
      .ok { m_address := address, m_type := [44], m_readonly := false, m_data := [] }

/-- First loop of `get_type_list`: `while (ctr++ < buffer_length)
if (*buffer++ == ',') break;`.  Returns `ctr` and the rest of the buffer
after the loop. -/
def get_type_list_skip (buffer_length : Nat) :
    List Nat → Nat → Except OscError (Nat × List Nat)
  | [], ctr =>
    if ctr < buffer_length then .error .OutOfBounds else .ok (ctr + 1, [])
  | b :: rest, ctr =>
    if ctr < buffer_length then
      if b = 44 then .ok (ctr + 1, rest)
      else get_type_list_skip buffer_length rest (ctr + 1)
    else .ok (ctr + 1, b :: rest)

/-- Second loop of `get_type_list`: `while (ctr++ < buffer_length)
if (*buffer != 0) ret.push_back(*buffer++); else break;`. -/
def get_type_list_read (buffer_length : Nat) :
    List Nat → Nat → List Nat → Except OscError (List Nat)
  | [], ctr, ret =>
    if ctr < buffer_length then .error .OutOfBounds else .ok ret
  | b :: rest, ctr, ret =>
    if ctr < buffer_length then
      if b ≠ 0 then get_type_list_read buffer_length rest (ctr + 1) (ret ++ [b])
      else .ok ret
    else .ok ret

/-- The method `OscMessage::get_type_list`. -/
def get_type_list (buffer : List Nat) (buffer_length : Nat) :
    Except OscError (List Nat) :=
  match get_type_list_skip buffer_length buffer 0 with
  | .error e => .error e
  | .ok (ctr, rest) => get_type_list_read buffer_length rest ctr []

/-- The method `OscMessage::get_data`: the first `buffer_length` bytes. -/
def get_data (buffer : List Nat) (buffer_length : Nat) :
    Except OscError (List Nat) :=
  if buffer_length ≤ buffer.length then .ok (buffer.take buffer_length)
  else .error .OutOfBounds

/-- The constructor `OscMessage::OscMessage(char* buffer, int buffer_length)`. -/
def OscMessage_buffer (buffer : List Nat) (buffer_length : Nat) :
    Except OscError OscMessage :=
  match cstr buffer with
  | .error e => .error e
  | .ok address =>
    match HEKKYOSC_ASSERT (decide (address.length > 1)) .InvalidAddress with
    | .error e => .error e
    | .ok _ =>
      match HEKKYOSC_ASSERT (address.head? == some 47) .InvalidAddress with
      | .error e => .error e
      | .ok _ =>
        match get_type_list buffer buffer_length with
        | .error e => .error e
        | .ok type =>
          match get_data buffer buffer_length with
          | .error e => .error e
          | .ok data =>
            .ok { m_address := address, m_type := type, m_data := data,
                  m_readonly := false }

/-- The accessor `GetAddress`. -/
def GetAddress (self : OscMessage) : List Nat := self.m_address

/-- The accessor `GetTypeList`. -/
def GetTypeList (self : OscMessage) : List Nat := self.m_type

/-- The accessor `GetData`. -/
def GetData (self : OscMessage) : List Nat := self.m_data

/-- The method `PushBlob`: the bytes go in at `m_data.begin()`. -/
def PushBlob (self : OscMessage) (data : List Nat) (size : Nat) : Call OscMessage :=
  match HEKKYOSC_ASSERT (self.m_readonly == false) .MessageClosed with
  | .error e => (self, .error e)
  | .ok _ =>
    if size ≤ data.length then
      let self := { self with
        m_data := data.take size ++ self.m_data, m_type := self.m_type ++ [98] }
      (self, .ok self)
    else (self, .error .OutOfBounds)

/-- The method `PushFloat32`, on the bit pattern of the value. -/
def PushFloat32 (self : OscMessage) (data : Nat) : Call OscMessage :=
  match HEKKYOSC_ASSERT (self.m_readonly == false) .MessageClosed with
  | .error e => (self, .error e)
  | .ok _ =>
    if isinf32 data then
      let self := { self with m_type := self.m_type ++ [73] }
      (self, .ok self)
    else
      let primitiveLiteral := if utils.IsLittleEndian then utils.SwapFloat32 data else data
      let self := { self with
        m_data := self.m_data ++ objectBytes 4 primitiveLiteral,
        m_type := self.m_type ++ [102] }
      (self, .ok self)

/-- The method `PushFloat64`, on the bit pattern of the value. -/
def PushFloat64 (self : OscMessage) (data : Nat) : Call OscMessage :=
  match HEKKYOSC_ASSERT (self.m_readonly == false) .MessageClosed with
  | .error e => (self, .error e)
  | .ok _ =>
    if isinf64 data then
      let self := { self with m_type := self.m_type ++ [73] }
      (self, .ok self)
    else
      let primitiveLiteral := if utils.IsLittleEndian then utils.SwapFloat64 data else data
      let self := { self with
        m_data := self.m_data ++ objectBytes 8 primitiveLiteral,
        m_type := self.m_type ++ [100] }
      (self, .ok self)

/-- The method `PushInt32`. -/
def PushInt32 (self : OscMessage) (data : Int) : Call OscMessage :=
  match HEKKYOSC_ASSERT (self.m_readonly == false) .MessageClosed with
  | .error e => (self, .error e)
  | .ok _ =>
    let primitiveLiteral :=
      if utils.IsLittleEndian then utils.SwapInt32 (toBits 32 data) else toBits 32 data
    let self := { self with
      m_data := self.m_data ++ objectBytes 4 primitiveLiteral,
      m_type := self.m_type ++ [105] }
    (self, .ok self)

/-- The method `PushInt64`. -/
def PushInt64 (self : OscMessage) (data : Int) : Call OscMessage :=
  match HEKKYOSC_ASSERT (self.m_readonly == false) .MessageClosed with
  | .error e => (self, .error e)
  | .ok _ =>
    let primitiveLiteral :=
      if utils.IsLittleEndian then utils.SwapInt64 (toBits 64 data) else toBits 64 data
    let self := { self with
      m_data := self.m_data ++ objectBytes 8 primitiveLiteral,
      m_type := self.m_type ++ [104] }
    (self, .ok self)

/-- The method `PushBoolean`. -/
def PushBoolean (self : OscMessage) (data : Bool) : Call OscMessage :=
  match HEKKYOSC_ASSERT (self.m_readonly == false) .MessageClosed with
  | .error e => (self, .error e)
  | .ok _ =>
    let self := { self with m_type := self.m_type ++ [if data == true then 84 else 70] }
    (self, .ok self)

/-- The method `PushString`. -/
def PushString (self : OscMessage) (data : List Nat) : Call OscMessage :=
  match HEKKYOSC_ASSERT (self.m_readonly == false) .MessageClosed with
  | .error e => (self, .error e)
  | .ok _ =>
    let self := { self with
      m_data := self.m_data ++ data
        ++ List.replicate (utils.GetAlignedStringLength data.length - data.length) 0,
      m_type := self.m_type ++ [115] }
    (self, .ok self)

/-- The method `PushStringRef`. -/
def PushStringRef (self : OscMessage) (data : List Nat) : Call OscMessage :=
  match HEKKYOSC_ASSERT (self.m_readonly == false) .MessageClosed with
  | .error e => (self, .error e)
  | .ok _ =>
    let self := { self with
      m_data := self.m_data ++ data
        ++ List.replicate (utils.GetAlignedStringLength data.length - data.length) 0,
      m_type := self.m_type ++ [115] }
    (self, .ok self)

/-- The method `PushCStyleStringRef`; `data` is the memory behind the
pointer, read up to its first NUL by `strlen`. -/
def PushCStyleStringRef (self : OscMessage) (data : List Nat) : Call OscMessage :=
  match HEKKYOSC_ASSERT (self.m_readonly == false) .MessageClosed with
  | .error e => (self, .error e)
  | .ok _ =>
    match cstr data with
    | .error e => (self, .error e)
    | .ok s =>
      let self := { self with
        m_data := self.m_data ++ s
          ++ List.replicate (utils.GetAlignedStringLength s.length - s.length) 0,
        m_type := self.m_type ++ [115] }
      (self, .ok self)

/-- The method `PushCStyleString`. -/
def PushCStyleString (self : OscMessage) (data : List Nat) : Call OscMessage :=
  match HEKKYOSC_ASSERT (self.m_readonly == false) .MessageClosed with
  | .error e => (self, .error e)
  | .ok _ =>
    match cstr data with
    | .error e => (self, .error e)
    | .ok s =>
      let self := { self with
        m_data := self.m_data ++ s
          ++ List.replicate (utils.GetAlignedStringLength s.length - s.length) 0,
        m_type := self.m_type ++ [115] }
      (self, .ok self)

/-- The method `PushWString`; `data` holds the `wchar_t` code units, each
converted to `char` when copied into the byte vector. -/
def PushWString (self : OscMessage) (data : List Nat) : Call OscMessage :=
  match HEKKYOSC_ASSERT (self.m_readonly == false) .MessageClosed with
  | .error e => (self, .error e)
  | .ok _ =>
    let self := { self with
      m_data := self.m_data ++ data.map (· % 256)
        ++ List.replicate (utils.GetAlignedStringLength data.length - data.length) 0,
      m_type := self.m_type ++ [115] }
    (self, .ok self)

/-- The method `PushWStringRef`. -/
def PushWStringRef (self : OscMessage) (data : List Nat) : Call OscMessage :=
  match HEKKYOSC_ASSERT (self.m_readonly == false) .MessageClosed with
  | .error e => (self, .error e)
  | .ok _ =>
    let self := { self with
      m_data := self.m_data ++ data.map (· % 256)
        ++ List.replicate (utils.GetAlignedStringLength data.length - data.length) 0,
      m_type := self.m_type ++ [115] }
    (self, .ok self)

/-- The method `PushCStyleWStringRef`; `wcslen` reads up to the first zero
code unit. -/
def PushCStyleWStringRef (self : OscMessage) (data : List Nat) : Call OscMessage :=
  match HEKKYOSC_ASSERT (self.m_readonly == false) .MessageClosed with
  | .error e => (self, .error e)
  | .ok _ =>
    match cstr data with
    | .error e => (self, .error e)
    | .ok s =>
      let self := { self with
        m_data := self.m_data ++ s.map (· % 256)
          ++ List.replicate (utils.GetAlignedStringLength s.length - s.length) 0,
        m_type := self.m_type ++ [115] }
      (self, .ok self)

/-- The method `PushCStyleWString`. -/
def PushCStyleWString (self : OscMessage) (data : List Nat) : Call OscMessage :=
  match HEKKYOSC_ASSERT (self.m_readonly == false) .MessageClosed with
  | .error e => (self, .error e)
  | .ok _ =>
    match cstr data with
    | .error e => (self, .error e)
    | .ok s =>
      let self := { self with
        m_data := self.m_data ++ s.map (· % 256)
          ++ List.replicate (utils.GetAlignedStringLength s.length - s.length) 0,
        m_type := self.m_type ++ [115] }
      (self, .ok self)

/-- The address part of the header built by `GetBytes`: the address and its
alignment padding. -/
def addressSegment (self : OscMessage) : List Nat :=
  self.m_address
    ++ List.replicate (utils.GetAlignedStringLength self.m_address.length - self.m_address.length) 0

/-- The type part of the header built by `GetBytes`: the type tags and their
alignment padding. -/
def typeSegment (self : OscMessage) : List Nat :=
  self.m_type
    ++ List.replicate (utils.GetAlignedStringLength self.m_type.length - self.m_type.length) 0

/-- The method `GetBytes`: the state after the call, the bytes behind the
returned pointer and the value stored in `size`. -/
def GetBytes (self : OscMessage) : OscMessage × List Nat × Nat :=
  let headerData := addressSegment self ++ typeSegment self
  let self := { self with m_data := headerData ++ self.m_data, m_readonly := true }
  (self, self.m_data, self.m_data.length)

/-- The method `get_data_start_point`. -/
def get_data_start_point (self : OscMessage) : Except OscError Nat :=
  match scanTo 44 .OutOfBounds self.m_data 0 with
  | .error e => .error e
  | .ok i =>
    match scanTo 0 .OutOfBounds (self.m_data.drop i) i with
    | .error e => .error e
    | .ok i => .ok (alignLoop (i + 1))

/-- The method `get_string_length`; the scan reads through `.at()`. -/
def get_string_length (self : OscMessage) (start_point : Nat) : Except OscError Nat :=
  match scanTo 0 .OutOfRange (self.m_data.drop start_point) start_point with
  | .error e => .error e
  | .ok start_point => .ok (alignLoop (start_point + 1))

/-- The loop of `get_argument_start_point`: the first argument is the type
list from index `i` on (`m_type.at(i)` throws when it is exhausted), the
second the number of iterations left. -/
def get_argument_start_point_loop (self : OscMessage) :
    List Nat → Nat → Nat → Except OscError Nat
  | _, 0, start_point => .ok start_point
  | [], _ + 1, _ => .error .OutOfRange
  | t :: ts, n + 1, start_point =>
    if t = 105 then get_argument_start_point_loop self ts n (start_point + 4)
    else if t = 102 then get_argument_start_point_loop self ts n (start_point + 4)
    else if t = 115 then
      match get_string_length self start_point with
      | .error e => .error e
      | .ok start_point => get_argument_start_point_loop self ts n start_point
    else if t = 100 then get_argument_start_point_loop self ts n (start_point + 8)
    else get_argument_start_point_loop self ts n start_point

/-- The method `get_argument_start_point`. -/
def get_argument_start_point (self : OscMessage) (argument_nr : Nat) :
    Except OscError Nat :=
  match get_data_start_point self with
  | .error e => .error e
  | .ok start_point =>
    get_argument_start_point_loop self self.m_type argument_nr start_point

/-- The read `m_data[i]` through `operator[]`. -/
def index (self : OscMessage) (i : Nat) : Except OscError Nat :=
  match self.m_data[i]? with
  | some b => .ok b
  | none => .error .OutOfBounds

/-- Integral promotion of a (signed) `char` to `int`, as a 32-bit pattern. -/
def promote (b : Nat) : Nat := if b < 128 then b else b + 0xFFFFFF00

/-- One iteration of the loop of `get_int`:
`ret |= (m_data[...] << (24 - (i * 8)));` with `ret` a `uint8_t`. -/
def get_int_step (ret b i : Nat) : Nat :=
  (ret ||| (promote b <<< (24 - i * 8)) % 2 ^ 32) % 256

/-- The method `get_int`, of return type `uint8_t`. -/
def get_int (self : OscMessage) (argument_nr : Nat) : Except OscError Nat :=
  match get_argument_start_point self argument_nr with
  | .error e => .error e
  | .ok p =>
    match index self p, index self (p + 1), index self (p + 2), index self (p + 3) with
    | .ok b0, .ok b1, .ok b2, .ok b3 =>
      .ok (get_int_step (get_int_step (get_int_step (get_int_step 0 b0 0) b1 1) b2 2) b3 3)
    | _, _, _, _ => .error .OutOfBounds

/-- The method `get_float`; the result is the bit pattern of the float. -/
def get_float (self : OscMessage) (argument_nr : Nat) : Except OscError Nat :=
  match get_argument_start_point self argument_nr with
  | .error e => .error e
  | .ok p =>
    match index self p, index self (p + 1), index self (p + 2), index self (p + 3) with
    | .ok b0, .ok b1, .ok b2, .ok b3 => .ok (ofObjectBytes [b3, b2, b1, b0])
    | _, _, _, _ => .error .OutOfBounds

/-- The method `get_double`; the result is the bit pattern of the double. -/
def get_double (self : OscMessage) (argument_nr : Nat) : Except OscError Nat :=
  match get_argument_start_point self argument_nr with
  | .error e => .error e
  | .ok p =>
    match index self p, index self (p + 1), index self (p + 2), index self (p + 3),
      index self (p + 4), index self (p + 5), index self (p + 6), index self (p + 7) with
    | .ok b0, .ok b1, .ok b2, .ok b3, .ok b4, .ok b5, .ok b6, .ok b7 =>
      .ok (ofObjectBytes [b7, b6, b5, b4, b3, b2, b1, b0])
    | _, _, _, _, _, _, _, _ => .error .OutOfBounds

/-- The method `get_string`. -/
def get_string (self : OscMessage) (argument_nr : Nat) : Except OscError (List Nat) :=
  match get_argument_start_point self argument_nr with
  | .error e => .error e
  | .ok p => cstr (self.m_data.drop p)

end OscMessage

/-- One push call with its arguments. -/
inductive PushOp
  | Blob (data : List Nat) (size : Nat)
  | Float32 (bits : Nat)
  | Float64 (bits : Nat)
  | Int32 (v : Int)
  | Int64 (v : Int)
  | Boolean (b : Bool)
  | String (s : List Nat)
  | StringRef (s : List Nat)
  | CStyleStringRef (s : List Nat)
  | CStyleString (s : List Nat)
  | WString (s : List Nat)
  | WStringRef (s : List Nat)
  | CStyleWStringRef (s : List Nat)
  | CStyleWString (s : List Nat)
  deriving DecidableEq, Repr

/-- The call of the push method an operation names. -/
def OscMessage.Push (self : OscMessage) : PushOp → Call OscMessage
  | .Blob d n => self.PushBlob d n
  | .Float32 x => self.PushFloat32 x
  | .Float64 x => self.PushFloat64 x
  | .Int32 v => self.PushInt32 v
  | .Int64 v => self.PushInt64 v
  | .Boolean b => self.PushBoolean b
  | .String s => self.PushString s
  | .StringRef s => self.PushStringRef s
  | .CStyleStringRef s => self.PushCStyleStringRef s
  | .CStyleString s => self.PushCStyleString s
  | .WString s => self.PushWString s
  | .WStringRef s => self.PushWStringRef s
  | .CStyleWStringRef s => self.PushCStyleWStringRef s
  | .CStyleWString s => self.PushCStyleWString s

/-- The state of the object after a sequence of push calls on it. -/
def OscMessage.PushAll (self : OscMessage) : List PushOp → OscMessage
  | [] => self
  | op :: ops => OscMessage.PushAll (self.Push op).1 ops

/-- Build a message on an address, push, serialise with `GetBytes`: the bytes
and the size handed to the transport. -/
def encode (address : List Nat) (ops : List PushOp) : Except OscError (List Nat × Nat) :=
  match OscMessage.OscMessage_address address with
  | .error e => .error e
  | .ok m => .ok (m.PushAll ops).GetBytes.2

/-- Encode, then construct a message from exactly the bytes and the size
`GetBytes` gave. -/
def encodeDecode (address : List Nat) (ops : List PushOp) : Except OscError OscMessage :=
  match encode address ops with
  | .error e => .error e
  | .ok (bytes, size) => OscMessage.OscMessage_buffer bytes size

/-- The `switch` of `get_argument_start_point` on one type tag: the offset
after the argument with that tag. -/
def get_argument_start_point_case (self : OscMessage) (t start_point : Nat) :
    Except OscError Nat :=
  if t = 105 then .ok (start_point + 4)
  else if t = 102 then .ok (start_point + 4)
  else if t = 115 then OscMessage.get_string_length self start_point
  else if t = 100 then .ok (start_point + 8)
  else .ok start_point

/-- The pushes the offset walk of the decoder is compared with: int32,
float32 and float64 (infinite or not), boolean, and `PushString` of a string
without NUL. -/
def PushOp.Walkable : PushOp → Prop
  | .Int32 _ => True
  | .Float32 _ => True
  | .Float64 _ => True
  | .Boolean _ => True
  | .String s => 0 ∉ s
  | _ => False

/-- The number of payload bytes the spec counts for one push: 4 for an int32
or a float32, 8 for an int64 or a float64, none for an infinite float and for
a boolean, the aligned length for a string, the given size for a blob. -/
def argumentBytes : PushOp → Nat
  | .Blob _ n => n
  | .Float32 x => if isinf32 x then 0 else 4
  | .Float64 x => if isinf64 x then 0 else 8
  | .Int32 _ => 4
  | .Int64 _ => 8
  | .Boolean _ => 0
  | .String s => utils.GetAlignedStringLength s.length
  | .StringRef s => utils.GetAlignedStringLength s.length
  | .CStyleStringRef s => utils.GetAlignedStringLength (s.takeWhile (· ≠ 0)).length
  | .CStyleString s => utils.GetAlignedStringLength (s.takeWhile (· ≠ 0)).length
  | .WString s => utils.GetAlignedStringLength s.length
  | .WStringRef s => utils.GetAlignedStringLength s.length
  | .CStyleWStringRef s => utils.GetAlignedStringLength (s.takeWhile (· ≠ 0)).length
  | .CStyleWString s => utils.GetAlignedStringLength (s.takeWhile (· ≠ 0)).length

/-- The bytes one narrow string push appends to the payload: the characters
and the zero padding. -/
def stringSegment (s : List Nat) : List Nat :=
  s ++ List.replicate (utils.GetAlignedStringLength s.length - s.length) 0

/-- The payload a sequence of narrow string pushes appends. -/
def stringSegments : List (List Nat) → List Nat
  | [] => []
  | s :: ss => stringSegment s ++ stringSegments ss

/-- The aligned length in the words of the spec: `k` is the smallest multiple
of 4 strictly greater than `n`. -/
def IsAlignedLength (n k : Nat) : Prop :=
  k % 4 = 0 ∧ n < k ∧ ∀ j, j % 4 = 0 → n < j → k ≤ j

/-! ## Arithmetic of alignment -/

theorem aligned_gt (n : Nat) : n < utils.GetAlignedStringLength n := by
  unfold utils.GetAlignedStringLength; omega

theorem aligned_mod (n : Nat) : utils.GetAlignedStringLength n % 4 = 0 := by
  unfold utils.GetAlignedStringLength; omega

theorem aligned_least (n j : Nat) (hj : j % 4 = 0) (hn : n < j) :
    utils.GetAlignedStringLength n ≤ j := by
  unfold utils.GetAlignedStringLength; omega

theorem aligned_pad (n : Nat) :
    utils.GetAlignedStringLength n - n = 4 - n % 4 := by
  unfold utils.GetAlignedStringLength; omega

theorem alignLoop_mod (i : Nat) : alignLoop i % 4 = 0 := by
  unfold alignLoop alignStep; split_ifs <;> omega

theorem alignLoop_eq (base n : Nat) (hb : base % 4 = 0) :
    alignLoop (base + n + 1) = base + utils.GetAlignedStringLength n := by
  unfold alignLoop alignStep utils.GetAlignedStringLength; split_ifs <;> omega

theorem aligned_isAligned (n : Nat) :
    IsAlignedLength n (n + (utils.GetAlignedStringLength n - n)) := by
  have h1 := aligned_gt n
  have h2 := aligned_mod n
  have h3 : n + (utils.GetAlignedStringLength n - n) = utils.GetAlignedStringLength n := by omega
  rw [h3]
  exact ⟨h2, h1, fun j hj hn => aligned_least n j hj hn⟩

/-! ## Finalization -/

/-- C3: on a build-phase message with address `a`, type tags `t` and payload
`p`, `GetBytes` returns `a`, zero padding up to the aligned length of `a`, `t`,
zero padding up to the aligned length of `t`, then `p`; the reported size is
the length of that sequence and the message is left marked finalized. -/
theorem GetBytes_wire_layout (self : OscMessage) (_hbuild : self.m_readonly = false) :
    ∃ padA padT : Nat,
      IsAlignedLength self.m_address.length (self.m_address.length + padA) ∧
      IsAlignedLength self.m_type.length (self.m_type.length + padT) ∧
      self.GetBytes.2.1 =
        self.m_address ++ List.replicate padA 0 ++ self.m_type ++ List.replicate padT 0
          ++ self.m_data ∧
      self.GetBytes.2.2 =
        (self.m_address ++ List.replicate padA 0 ++ self.m_type ++ List.replicate padT 0
          ++ self.m_data).length ∧
      self.GetBytes.1.m_readonly = true ∧
      self.GetBytes.1.m_data = self.GetBytes.2.1 := by
  refine ⟨utils.GetAlignedStringLength self.m_address.length - self.m_address.length,
    utils.GetAlignedStringLength self.m_type.length - self.m_type.length,
    aligned_isAligned _, aligned_isAligned _, ?_, ?_, rfl, rfl⟩
  · simp [OscMessage.GetBytes, OscMessage.addressSegment, OscMessage.typeSegment]
  · simp [OscMessage.GetBytes, OscMessage.addressSegment, OscMessage.typeSegment]

theorem GetBytes_wire_layout_witness :
    ∃ padA padT : Nat,
      IsAlignedLength 4 (4 + padA) ∧ IsAlignedLength 2 (2 + padT) ∧
      (OscMessage.mk false [47, 102, 111, 111] [44, 105] [0, 0, 0, 42]).GetBytes.2.1 =
        [47, 102, 111, 111] ++ List.replicate padA 0 ++ [44, 105] ++ List.replicate padT 0
          ++ [0, 0, 0, 42] ∧
      (OscMessage.mk false [47, 102, 111, 111] [44, 105] [0, 0, 0, 42]).GetBytes.2.2 =
        ([47, 102, 111, 111] ++ List.replicate padA 0 ++ [44, 105] ++ List.replicate padT 0
          ++ [0, 0, 0, 42]).length ∧
      (OscMessage.mk false [47, 102, 111, 111] [44, 105] [0, 0, 0, 42]).GetBytes.1.m_readonly
        = true ∧
      (OscMessage.mk false [47, 102, 111, 111] [44, 105] [0, 0, 0, 42]).GetBytes.1.m_data =
        (OscMessage.mk false [47, 102, 111, 111] [44, 105] [0, 0, 0, 42]).GetBytes.2.1 :=
  GetBytes_wire_layout (OscMessage.mk false [47, 102, 111, 111] [44, 105] [0, 0, 0, 42]) rfl

/-- C4: evaluation at the failing input.  On the message built on the address
`/a` with no argument, the first `GetBytes` returns the 8 header bytes and the
second call on the same object returns 16 bytes, the header twice. -/
theorem GetBytes_twice_prepends_header_twice :
    OscMessage.OscMessage_address [47, 97] =
        .ok (OscMessage.mk false [47, 97] [44] []) ∧
      (OscMessage.mk false [47, 97] [44] []).GetBytes.2 = ([47, 97, 0, 0, 44, 0, 0, 0], 8) ∧
      (OscMessage.mk false [47, 97] [44] []).GetBytes.1.GetBytes.2 =
        ([47, 97, 0, 0, 44, 0, 0, 0, 47, 97, 0, 0, 44, 0, 0, 0], 16) := by
  refine ⟨rfl, rfl, rfl⟩

/-- C5: on a message on which `GetBytes` has been called, every push call
raises `MessageClosed` and leaves the object state (address, type tags, stored
bytes, flag) as it was. -/
theorem push_after_GetBytes_closed (self : OscMessage) (op : PushOp) :
    self.GetBytes.1.Push op = (self.GetBytes.1, .error .MessageClosed) := by
  cases op <;> rfl

/-! ## Pushes -/

/-- C6: evaluation at the failing input.  After `PushInt32(1)` and then
`PushBlob` of the single byte `0xAA` on a message built on `/a`, the payload
is the blob byte followed by the four bytes of the integer, and the type tags
are `,ib`. -/
theorem PushBlob_prepends :
    (((OscMessage.mk false [47, 97] [44] []).PushInt32 1).1.PushBlob [170] 1).1 =
      OscMessage.mk false [47, 97] [44, 105, 98] [170, 0, 0, 0, 1] := by
  rfl

theorem bytesLE_length (n x : Nat) : (bytesLE n x).length = n := by
  induction n generalizing x with
  | zero => rfl
  | succ n ih => simp [bytesLE, ih]

theorem bytesLE_lt (n x : Nat) : ∀ b ∈ bytesLE n x, b < 256 := by
  induction n generalizing x with
  | zero => simp [bytesLE]
  | succ n ih =>
    intro b hb
    simp only [bytesLE, List.mem_cons] at hb
    rcases hb with h | h
    · omega
    · exact ih _ b h

theorem bytesLE_ofBytesLE (bs : List Nat) (h : ∀ b ∈ bs, b < 256) :
    bytesLE bs.length (ofBytesLE bs) = bs := by
  induction bs with
  | nil => rfl
  | cons b bs ih =>
    have hb : b < 256 := h b (List.mem_cons_self _ _)
    have hbs : ∀ c ∈ bs, c < 256 := fun c hc => h c (List.mem_cons_of_mem _ hc)
    have h1 : (b + 256 * ofBytesLE bs) % 256 = b := by omega
    have h2 : (b + 256 * ofBytesLE bs) / 256 = ofBytesLE bs := by omega
    simp only [List.length_cons, bytesLE, ofBytesLE, h1, h2, ih hbs]

theorem bytesLE_reverse (n x : Nat) :
    bytesLE n (ofBytesLE (bytesLE n x).reverse) = (bytesLE n x).reverse := by
  have h := bytesLE_ofBytesLE (bytesLE n x).reverse
    (fun b hb => bytesLE_lt n x b (List.mem_reverse.mp hb))
  simpa [bytesLE_length] using h

theorem bytesLE_swap32 (x : Nat) :
    bytesLE 4 (utils.SwapInt32 x) =
      [x / 2 ^ 24 % 256, x / 2 ^ 16 % 256, x / 2 ^ 8 % 256, x % 256] := by
  rw [utils.SwapInt32, bytesLE_reverse]
  simp [bytesLE, Nat.div_div_eq_div_mul]

theorem bytesLE_swap64 (x : Nat) :
    bytesLE 8 (utils.SwapInt64 x) =
      [x / 2 ^ 56 % 256, x / 2 ^ 48 % 256, x / 2 ^ 40 % 256, x / 2 ^ 32 % 256,
        x / 2 ^ 24 % 256, x / 2 ^ 16 % 256, x / 2 ^ 8 % 256, x % 256] := by
  rw [utils.SwapInt64, bytesLE_reverse]
  simp [bytesLE, Nat.div_div_eq_div_mul]

/-- C10: for all integers `v` and `w` (the 32-bit and 64-bit ones among them),
on a build-phase message `PushInt32(v)` appends to the payload the
four bytes of the two's-complement pattern of `v`, most significant first, and
`i` to the type tags; `PushInt64(v)` appends the eight big-endian bytes of `v`
and `h`; the address and the flag stay as they were, and the call returns the
new state. -/
theorem PushInt_big_endian (self : OscMessage) (v w : Int)
    (hbuild : self.m_readonly = false) :
    self.PushInt32 v =
        ({ self with
            m_data := self.m_data ++
              [(v % 2 ^ 32).toNat / 2 ^ 24 % 256, (v % 2 ^ 32).toNat / 2 ^ 16 % 256,
               (v % 2 ^ 32).toNat / 2 ^ 8 % 256, (v % 2 ^ 32).toNat % 256],
            m_type := self.m_type ++ [105] },
         .ok { self with
            m_data := self.m_data ++
              [(v % 2 ^ 32).toNat / 2 ^ 24 % 256, (v % 2 ^ 32).toNat / 2 ^ 16 % 256,
               (v % 2 ^ 32).toNat / 2 ^ 8 % 256, (v % 2 ^ 32).toNat % 256],
            m_type := self.m_type ++ [105] }) ∧
      self.PushInt64 w =
        ({ self with
            m_data := self.m_data ++
              [(w % 2 ^ 64).toNat / 2 ^ 56 % 256, (w % 2 ^ 64).toNat / 2 ^ 48 % 256,
               (w % 2 ^ 64).toNat / 2 ^ 40 % 256, (w % 2 ^ 64).toNat / 2 ^ 32 % 256,
               (w % 2 ^ 64).toNat / 2 ^ 24 % 256, (w % 2 ^ 64).toNat / 2 ^ 16 % 256,
               (w % 2 ^ 64).toNat / 2 ^ 8 % 256, (w % 2 ^ 64).toNat % 256],
            m_type := self.m_type ++ [104] },
         .ok { self with
            m_data := self.m_data ++
              [(w % 2 ^ 64).toNat / 2 ^ 56 % 256, (w % 2 ^ 64).toNat / 2 ^ 48 % 256,
               (w % 2 ^ 64).toNat / 2 ^ 40 % 256, (w % 2 ^ 64).toNat / 2 ^ 32 % 256,
               (w % 2 ^ 64).toNat / 2 ^ 24 % 256, (w % 2 ^ 64).toNat / 2 ^ 16 % 256,
               (w % 2 ^ 64).toNat / 2 ^ 8 % 256, (w % 2 ^ 64).toNat % 256],
            m_type := self.m_type ++ [104] }) := by
  constructor
  · simp [OscMessage.PushInt32, HEKKYOSC_ASSERT, hbuild, utils.IsLittleEndian,
      objectBytes, toBits, bytesLE_swap32]
  · simp [OscMessage.PushInt64, HEKKYOSC_ASSERT, hbuild, utils.IsLittleEndian,
      objectBytes, toBits, bytesLE_swap64]

theorem PushInt_big_endian_witness :
    (OscMessage.mk false [47, 97] [44] [7]).PushInt32 (-2) =
        (OscMessage.mk false [47, 97] [44, 105] [7, 255, 255, 255, 254],
         .ok (OscMessage.mk false [47, 97] [44, 105] [7, 255, 255, 255, 254])) ∧
      (OscMessage.mk false [47, 97] [44] [7]).PushInt64 258 =
        (OscMessage.mk false [47, 97] [44, 104] [7, 0, 0, 0, 0, 0, 0, 1, 2],
         .ok (OscMessage.mk false [47, 97] [44, 104] [7, 0, 0, 0, 0, 0, 0, 1, 2])) :=
  PushInt_big_endian (OscMessage.mk false [47, 97] [44] [7]) (-2) 258 rfl

/-! ## Scans over a buffer -/

theorem cstr_append (s rest : List Nat) (h : 0 ∉ s) : cstr (s ++ 0 :: rest) = .ok s := by
  induction s with
  | nil => simp [cstr]
  | cons b s ih =>
    have hb : b ≠ 0 := fun hb => h (hb ▸ List.mem_cons_self _ _)
    have hs : 0 ∉ s := fun hs => h (List.mem_cons_of_mem _ hs)
    simp [cstr, hb, ih hs]

theorem scanTo_append (c : Nat) (err : OscError) (pre rest : List Nat) (i : Nat)
    (h : c ∉ pre) : scanTo c err (pre ++ c :: rest) i = .ok (i + pre.length) := by
  induction pre generalizing i with
  | nil => simp [scanTo]
  | cons b pre ih =>
    have hb : b ≠ c := fun hb => h (hb ▸ List.mem_cons_self _ _)
    have hs : c ∉ pre := fun hs => h (List.mem_cons_of_mem _ hs)
    rw [List.cons_append, scanTo, if_neg hb, ih (i + 1) hs, List.length_cons]
    exact congrArg Except.ok (by omega)

theorem get_type_list_skip_append (L : Nat) (pre rest : List Nat) (ctr : Nat)
    (h : 44 ∉ pre) (hL : ctr + pre.length < L) :
    OscMessage.get_type_list_skip L (pre ++ 44 :: rest) ctr = .ok (ctr + pre.length + 1, rest) := by
  induction pre generalizing ctr with
  | nil =>
    have : ctr < L := by simpa using hL
    simp [OscMessage.get_type_list_skip, this]
  | cons b pre ih =>
    have hb : b ≠ 44 := fun hb => h (hb ▸ List.mem_cons_self _ _)
    have hs : 44 ∉ pre := fun hs => h (List.mem_cons_of_mem _ hs)
    simp only [List.length_cons] at hL
    have h1 : ctr < L := by omega
    have h2 : ctr + 1 + pre.length < L := by omega
    rw [List.cons_append, OscMessage.get_type_list_skip, if_pos h1, if_neg hb,
      ih (ctr + 1) hs h2, List.length_cons]
    rw [show ctr + 1 + pre.length = ctr + (pre.length + 1) by omega]

theorem get_type_list_read_append (L : Nat) (s rest : List Nat) (ctr : Nat) (ret : List Nat)
    (h : 0 ∉ s) (hL : ctr + s.length < L) :
    OscMessage.get_type_list_read L (s ++ 0 :: rest) ctr ret = .ok (ret ++ s) := by
  induction s generalizing ctr ret with
  | nil =>
    have : ctr < L := by simpa using hL
    simp [OscMessage.get_type_list_read, this]
  | cons b s ih =>
    have hb : b ≠ 0 := fun hb => h (hb ▸ List.mem_cons_self _ _)
    have hs : 0 ∉ s := fun hs => h (List.mem_cons_of_mem _ hs)
    simp only [List.length_cons] at hL
    have h1 : ctr < L := by omega
    have h2 : ctr + 1 + s.length < L := by omega
    simp [OscMessage.get_type_list_read, h1, hb, ih (ctr + 1) (ret ++ [b]) hs h2]

theorem get_type_list_skip_total (L : Nat) (buffer : List Nat) (ctr : Nat)
    (hL : L ≤ ctr + buffer.length) :
    ∃ c rest, OscMessage.get_type_list_skip L buffer ctr = .ok (c, rest) ∧
      L ≤ c + rest.length := by
  induction buffer generalizing ctr with
  | nil =>
    have : ¬ ctr < L := by simpa using hL
    exact ⟨ctr + 1, [], by simp [OscMessage.get_type_list_skip, this], by simp at hL ⊢; omega⟩
  | cons b buffer ih =>
    simp only [List.length_cons] at hL
    by_cases h1 : ctr < L
    · by_cases hb : b = 44
      · exact ⟨ctr + 1, buffer, by simp [OscMessage.get_type_list_skip, h1, hb], by omega⟩
      · obtain ⟨c, rest, h2, h3⟩ := ih (ctr + 1) (by omega)
        exact ⟨c, rest, by simp [OscMessage.get_type_list_skip, h1, hb, h2], h3⟩
    · exact ⟨ctr + 1, b :: buffer, by simp [OscMessage.get_type_list_skip, h1],
        by simp only [List.length_cons]; omega⟩

theorem get_type_list_read_total (L : Nat) (buffer : List Nat) (ctr : Nat) (ret : List Nat)
    (hL : L ≤ ctr + buffer.length) :
    ∃ r, OscMessage.get_type_list_read L buffer ctr ret = .ok r := by
  induction buffer generalizing ctr ret with
  | nil =>
    have : ¬ ctr < L := by simpa using hL
    exact ⟨ret, by simp [OscMessage.get_type_list_read, this]⟩
  | cons b buffer ih =>
    simp only [List.length_cons] at hL
    by_cases h1 : ctr < L
    · by_cases hb : b = 0
      · exact ⟨ret, by simp [OscMessage.get_type_list_read, h1, hb]⟩
      · obtain ⟨r, h2⟩ := ih (ctr + 1) (ret ++ [b]) (by omega)
        exact ⟨r, by simp [OscMessage.get_type_list_read, h1, hb, h2]⟩
    · exact ⟨ret, by simp [OscMessage.get_type_list_read, h1]⟩

theorem get_type_list_total (buffer : List Nat) :
    ∃ r, OscMessage.get_type_list buffer buffer.length = .ok r := by
  obtain ⟨c, rest, h1, h2⟩ := get_type_list_skip_total buffer.length buffer 0 (by omega)
  obtain ⟨r, h3⟩ := get_type_list_read_total buffer.length rest c [] h2
  exact ⟨r, by simp [OscMessage.get_type_list, h1, h3]⟩

/-! ## Sequences of pushes on a build-phase message -/

theorem replicate_pad (n : Nat) :
    List.replicate (utils.GetAlignedStringLength n - n) 0 =
      0 :: List.replicate (utils.GetAlignedStringLength n - n - 1) 0 := by
  have h := aligned_gt n
  have h2 : utils.GetAlignedStringLength n - n = (utils.GetAlignedStringLength n - n - 1) + 1 := by
    omega
  conv_lhs => rw [h2]
  rfl

theorem Push_inv (self : OscMessage) (op : PushOp) (h : self.m_readonly = false) :
    (self.Push op).1.m_readonly = false ∧ (self.Push op).1.m_address = self.m_address ∧
      ∃ tags, (self.Push op).1.m_type = self.m_type ++ tags ∧ 0 ∉ tags := by
  obtain ⟨ro, a, t, d⟩ := self
  simp only at h
  subst h
  cases op with
  | Blob d n =>
    by_cases hn : n ≤ d.length
    · simp [OscMessage.Push, OscMessage.PushBlob, HEKKYOSC_ASSERT, hn]
    · simp [OscMessage.Push, OscMessage.PushBlob, HEKKYOSC_ASSERT, hn]
  | Float32 x =>
    by_cases hx : isinf32 x = true
    · simp [OscMessage.Push, OscMessage.PushFloat32, HEKKYOSC_ASSERT, hx]
    · simp [OscMessage.Push, OscMessage.PushFloat32, HEKKYOSC_ASSERT, hx]
  | Float64 x =>
    by_cases hx : isinf64 x = true
    · simp [OscMessage.Push, OscMessage.PushFloat64, HEKKYOSC_ASSERT, hx]
    · simp [OscMessage.Push, OscMessage.PushFloat64, HEKKYOSC_ASSERT, hx]
  | Int32 v => exact ⟨rfl, rfl, [105], rfl, by decide⟩
  | Int64 v => exact ⟨rfl, rfl, [104], rfl, by decide⟩
  | Boolean b => cases b <;> simp [OscMessage.Push, OscMessage.PushBoolean, HEKKYOSC_ASSERT]
  | String s => exact ⟨rfl, rfl, [115], rfl, by decide⟩
  | StringRef s => exact ⟨rfl, rfl, [115], rfl, by decide⟩
  | CStyleStringRef s =>
    cases hc : cstr s <;>
      simp [OscMessage.Push, OscMessage.PushCStyleStringRef, HEKKYOSC_ASSERT, hc]
  | CStyleString s =>
    cases hc : cstr s <;>
      simp [OscMessage.Push, OscMessage.PushCStyleString, HEKKYOSC_ASSERT, hc]
  | WString s => exact ⟨rfl, rfl, [115], rfl, by decide⟩
  | WStringRef s => exact ⟨rfl, rfl, [115], rfl, by decide⟩
  | CStyleWStringRef s =>
    cases hc : cstr s <;>
      simp [OscMessage.Push, OscMessage.PushCStyleWStringRef, HEKKYOSC_ASSERT, hc]
  | CStyleWString s =>
    cases hc : cstr s <;>
      simp [OscMessage.Push, OscMessage.PushCStyleWString, HEKKYOSC_ASSERT, hc]

theorem PushAll_inv (self : OscMessage) (ops : List PushOp) (h : self.m_readonly = false) :
    (self.PushAll ops).m_readonly = false ∧ (self.PushAll ops).m_address = self.m_address ∧
      ∃ tags, (self.PushAll ops).m_type = self.m_type ++ tags ∧ 0 ∉ tags := by
  induction ops generalizing self with
  | nil => exact ⟨h, rfl, [], by simp [OscMessage.PushAll], by simp⟩
  | cons op ops ih =>
    obtain ⟨h1, h2, t1, h3, h4⟩ := Push_inv self op h
    obtain ⟨h5, h6, t2, h7, h8⟩ := ih (self.Push op).1 h1
    refine ⟨h5, h6.trans h2, t1 ++ t2, ?_, ?_⟩
    · simp only [OscMessage.PushAll, h7, h3, List.append_assoc]
    · simp [h4, h8]

theorem OscMessage_address_ok (address : List Nat) (hlen : address.length > 1)
    (hslash : address.head? = some 47) :
    OscMessage.OscMessage_address address = .ok (OscMessage.mk false address [44] []) := by
  simp [OscMessage.OscMessage_address, HEKKYOSC_ASSERT, hlen, hslash]

theorem GetBytes_shape (m : OscMessage) :
    ∃ pa pt, m.GetBytes.2.1 =
        m.m_address ++ 0 :: (List.replicate pa 0 ++ (m.m_type ++ 0 :: (List.replicate pt 0 ++ m.m_data))) ∧
      m.m_address.length + 1 + pa = utils.GetAlignedStringLength m.m_address.length ∧
      m.m_type.length + 1 + pt = utils.GetAlignedStringLength m.m_type.length ∧
      m.GetBytes.2.2 = m.GetBytes.2.1.length := by
  refine ⟨utils.GetAlignedStringLength m.m_address.length - m.m_address.length - 1,
    utils.GetAlignedStringLength m.m_type.length - m.m_type.length - 1, ?_, ?_, ?_, rfl⟩
  · simp only [OscMessage.GetBytes, OscMessage.addressSegment, OscMessage.typeSegment]
    rw [replicate_pad m.m_address.length, replicate_pad m.m_type.length]
    simp
  · have := aligned_gt m.m_address.length; omega
  · have := aligned_gt m.m_type.length; omega

/-! ## Decoding the bytes of `GetBytes` -/

theorem get_type_list_GetBytes (m : OscMessage) (tags : List Nat)
    (hcomma : 44 ∉ m.m_address) (htype : m.m_type = 44 :: tags) (htags : 0 ∉ tags) :
    OscMessage.get_type_list m.GetBytes.2.1 m.GetBytes.2.2 = .ok tags := by
  obtain ⟨pa, pt, hshape, -, -, hsize⟩ := GetBytes_shape m
  rw [hsize, hshape, htype]
  have hpre : 44 ∉ m.m_address ++ 0 :: List.replicate pa 0 := by
    simp only [List.mem_append, List.mem_cons, List.mem_replicate, not_or]
    exact ⟨hcomma, by decide, fun h => by omega⟩
  have e1 : m.m_address ++ 0 :: (List.replicate pa 0 ++
        (44 :: tags ++ 0 :: (List.replicate pt 0 ++ m.m_data))) =
      (m.m_address ++ 0 :: List.replicate pa 0) ++
        44 :: (tags ++ 0 :: (List.replicate pt 0 ++ m.m_data)) := by simp
  rw [e1, OscMessage.get_type_list,
    get_type_list_skip_append _ _ _ 0 hpre (by simp)]
  simp only
  rw [get_type_list_read_append _ _ _ _ _ htags (by simp; omega)]
  rfl

theorem OscMessage_buffer_GetBytes (m : OscMessage) (hlen : m.m_address.length > 1)
    (hslash : m.m_address.head? = some 47) (hnul : 0 ∉ m.m_address) :
    ∃ t, OscMessage.get_type_list m.GetBytes.2.1 m.GetBytes.2.2 = .ok t ∧
      OscMessage.OscMessage_buffer m.GetBytes.2.1 m.GetBytes.2.2 =
        .ok (OscMessage.mk false m.m_address t m.GetBytes.2.1) := by
  obtain ⟨pa, pt, hshape, -, -, hsize⟩ := GetBytes_shape m
  obtain ⟨t, ht⟩ := get_type_list_total m.GetBytes.2.1
  refine ⟨t, by rw [hsize]; exact ht, ?_⟩
  have hc : cstr m.GetBytes.2.1 = .ok m.m_address := by
    rw [hshape]; exact cstr_append _ _ hnul
  simp [OscMessage.OscMessage_buffer, hc, HEKKYOSC_ASSERT, hlen, hslash, ht,
    OscMessage.get_data, hsize]

theorem encode_eq (address : List Nat) (ops : List PushOp) (hlen : address.length > 1)
    (hslash : address.head? = some 47) :
    encode address ops = .ok ((OscMessage.mk false address [44] []).PushAll ops).GetBytes.2 := by
  simp [encode, OscMessage_address_ok address hlen hslash]

/-- C8: for every address of length above 1 that starts with `/` and holds no
NUL byte, and every sequence of pushes, constructing a message from the bytes
and size returned by `GetBytes` succeeds and its `GetAddress()` is the
original address. -/
theorem address_roundtrip (address : List Nat) (ops : List PushOp)
    (hlen : address.length > 1) (hslash : address.head? = some 47) (hnul : 0 ∉ address) :
    ∃ dec, encodeDecode address ops = .ok dec ∧ dec.GetAddress = address := by
  obtain ⟨-, haddr, -⟩ := PushAll_inv (OscMessage.mk false address [44] []) ops rfl
  simp only at haddr
  obtain ⟨t, -, hdec⟩ := OscMessage_buffer_GetBytes
    ((OscMessage.mk false address [44] []).PushAll ops)
    (by rw [haddr]; exact hlen) (by rw [haddr]; exact hslash) (by rw [haddr]; exact hnul)
  have h1 : encodeDecode address ops = .ok (OscMessage.mk false
      ((OscMessage.mk false address [44] []).PushAll ops).m_address t
      ((OscMessage.mk false address [44] []).PushAll ops).GetBytes.2.1) := by
    simp only [encodeDecode, encode_eq address ops hlen hslash]
    exact hdec
  exact ⟨_, h1, by simp [OscMessage.GetAddress, haddr]⟩

theorem address_roundtrip_witness :
    ∃ dec, encodeDecode [47, 97, 44, 98] [.Int32 5, .Blob [1, 2, 3] 3, .String [104, 105]]
        = .ok dec ∧ dec.GetAddress = [47, 97, 44, 98] :=
  address_roundtrip [47, 97, 44, 98] [.Int32 5, .Blob [1, 2, 3] 3, .String [104, 105]]
    (by decide) rfl (by decide)

/-- C7 (as amended): for every valid address without `,` or NUL and every
sequence of pushes, constructing a message from the bytes returned by
`GetBytes` succeeds, the encoded message has a `GetTypeList()` that starts with
`,`, and the decoded message has as `GetTypeList()` the encoded one without
that leading `,`. -/
theorem type_list_roundtrip (address : List Nat) (ops : List PushOp)
    (hlen : address.length > 1) (hslash : address.head? = some 47) (hnul : 0 ∉ address)
    (hcomma : 44 ∉ address) :
    ∃ enc dec, OscMessage.OscMessage_address address = .ok enc ∧
      encodeDecode address ops = .ok dec ∧
      (enc.PushAll ops).GetTypeList = 44 :: dec.GetTypeList := by
  obtain ⟨-, haddr, tags, htype, htags⟩ :=
    PushAll_inv (OscMessage.mk false address [44] []) ops rfl
  simp only at haddr
  simp only [List.singleton_append] at htype
  obtain ⟨t, ht, hdec⟩ := OscMessage_buffer_GetBytes
    ((OscMessage.mk false address [44] []).PushAll ops)
    (by rw [haddr]; exact hlen) (by rw [haddr]; exact hslash) (by rw [haddr]; exact hnul)
  have ht2 := get_type_list_GetBytes ((OscMessage.mk false address [44] []).PushAll ops) tags
    (by rw [haddr]; exact hcomma) htype htags
  rw [ht2] at ht
  cases ht
  have h1 : encodeDecode address ops = .ok (OscMessage.mk false
      ((OscMessage.mk false address [44] []).PushAll ops).m_address tags
      ((OscMessage.mk false address [44] []).PushAll ops).GetBytes.2.1) := by
    simp only [encodeDecode, encode_eq address ops hlen hslash]
    exact hdec
  exact ⟨_, _, OscMessage_address_ok address hlen hslash, h1,
    by simp [OscMessage.GetTypeList, htype]⟩

theorem type_list_roundtrip_witness :
    ∃ enc dec, OscMessage.OscMessage_address [47, 97] = .ok enc ∧
      encodeDecode [47, 97] [.Int32 5, .Boolean true, .String [104, 105]] = .ok dec ∧
      (enc.PushAll [.Int32 5, .Boolean true, .String [104, 105]]).GetTypeList
        = 44 :: dec.GetTypeList :=
  type_list_roundtrip [47, 97] [.Int32 5, .Boolean true, .String [104, 105]]
    (by decide) rfl (by decide) (by decide)

/-- C7, the claim as stated fails: on the address `/a` with the single push
`PushInt32(1)` the encoded message has the type list `,i`, and the message
constructed from the bytes of `GetBytes` has the type list `i`, which differs
and does not start with `,`. -/
theorem type_list_roundtrip_loses_comma :
    OscMessage.OscMessage_address [47, 97] = .ok (OscMessage.mk false [47, 97] [44] []) ∧
    ((OscMessage.mk false [47, 97] [44] []).PushAll [.Int32 1]).GetTypeList = [44, 105] ∧
    (encodeDecode [47, 97] [.Int32 1]).map OscMessage.GetTypeList = .ok [105] ∧
    ¬ ((encodeDecode [47, 97] [.Int32 1]).map OscMessage.GetTypeList =
        .ok ((OscMessage.mk false [47, 97] [44] []).PushAll [.Int32 1]).GetTypeList) := by
  refine ⟨rfl, rfl, rfl, ?_⟩
  intro h
  have h2 : (Except.ok [105] : Except OscError (List Nat)) = .ok [44, 105] := h
  simp at h2

/-! ## Alignment of the encoded message -/

theorem pad_length (n : Nat) : (n + (utils.GetAlignedStringLength n - n)) % 4 = 0 := by
  have h1 := aligned_gt n
  have h2 := aligned_mod n
  omega

theorem objectBytes_length (n x : Nat) : (objectBytes n x).length = n := by
  simp [objectBytes, utils.IsLittleEndian, bytesLE_length]

theorem Push_data (self : OscMessage) (op : PushOp) (h : self.m_readonly = false)
    (hop : ∀ d n, op ≠ .Blob d n) :
    ∃ seg, (self.Push op).1.m_data = self.m_data ++ seg ∧ seg.length % 4 = 0 := by
  obtain ⟨ro, a, t, d⟩ := self
  simp only at h
  subst h
  cases op with
  | Blob d n => exact absurd rfl (hop d n)
  | Float32 x =>
    by_cases hx : isinf32 x = true
    · exact ⟨[], by simp [OscMessage.Push, OscMessage.PushFloat32, HEKKYOSC_ASSERT, hx], rfl⟩
    · exact ⟨objectBytes 4 (if utils.IsLittleEndian = true then utils.SwapFloat32 x else x),
        by simp [OscMessage.Push, OscMessage.PushFloat32, HEKKYOSC_ASSERT, hx],
        by simp [objectBytes_length]⟩
  | Float64 x =>
    by_cases hx : isinf64 x = true
    · exact ⟨[], by simp [OscMessage.Push, OscMessage.PushFloat64, HEKKYOSC_ASSERT, hx], rfl⟩
    · exact ⟨objectBytes 8 (if utils.IsLittleEndian = true then utils.SwapFloat64 x else x),
        by simp [OscMessage.Push, OscMessage.PushFloat64, HEKKYOSC_ASSERT, hx],
        by simp [objectBytes_length]⟩
  | Int32 v => exact ⟨_, rfl, by simp [objectBytes_length]⟩
  | Int64 v => exact ⟨_, rfl, by simp [objectBytes_length]⟩
  | Boolean b => exact ⟨[], by simp [OscMessage.Push, OscMessage.PushBoolean, HEKKYOSC_ASSERT], rfl⟩
  | String s =>
    exact ⟨s ++ List.replicate (utils.GetAlignedStringLength s.length - s.length) 0,
      by simp [OscMessage.Push, OscMessage.PushString, HEKKYOSC_ASSERT],
      by simpa using pad_length s.length⟩
  | StringRef s =>
    exact ⟨s ++ List.replicate (utils.GetAlignedStringLength s.length - s.length) 0,
      by simp [OscMessage.Push, OscMessage.PushStringRef, HEKKYOSC_ASSERT],
      by simpa using pad_length s.length⟩
  | CStyleStringRef s =>
    cases hc : cstr s with
    | error e =>
      exact ⟨[], by simp [OscMessage.Push, OscMessage.PushCStyleStringRef, HEKKYOSC_ASSERT, hc],
        rfl⟩
    | ok r =>
      exact ⟨r ++ List.replicate (utils.GetAlignedStringLength r.length - r.length) 0,
        by simp [OscMessage.Push, OscMessage.PushCStyleStringRef, HEKKYOSC_ASSERT, hc],
        by simpa using pad_length r.length⟩
  | CStyleString s =>
    cases hc : cstr s with
    | error e =>
      exact ⟨[], by simp [OscMessage.Push, OscMessage.PushCStyleString, HEKKYOSC_ASSERT, hc],
        rfl⟩
    | ok r =>
      exact ⟨r ++ List.replicate (utils.GetAlignedStringLength r.length - r.length) 0,
        by simp [OscMessage.Push, OscMessage.PushCStyleString, HEKKYOSC_ASSERT, hc],
        by simpa using pad_length r.length⟩
  | WString s =>
    exact ⟨s.map (· % 256) ++ List.replicate (utils.GetAlignedStringLength s.length - s.length) 0,
      by simp [OscMessage.Push, OscMessage.PushWString, HEKKYOSC_ASSERT],
      by simpa using pad_length s.length⟩
  | WStringRef s =>
    exact ⟨s.map (· % 256) ++ List.replicate (utils.GetAlignedStringLength s.length - s.length) 0,
      by simp [OscMessage.Push, OscMessage.PushWStringRef, HEKKYOSC_ASSERT],
      by simpa using pad_length s.length⟩
  | CStyleWStringRef s =>
    cases hc : cstr s with
    | error e =>
      exact ⟨[], by simp [OscMessage.Push, OscMessage.PushCStyleWStringRef, HEKKYOSC_ASSERT, hc],
        rfl⟩
    | ok r =>
      exact ⟨r.map (· % 256) ++
          List.replicate (utils.GetAlignedStringLength r.length - r.length) 0,
        by simp [OscMessage.Push, OscMessage.PushCStyleWStringRef, HEKKYOSC_ASSERT, hc],
        by simpa using pad_length r.length⟩
  | CStyleWString s =>
    cases hc : cstr s with
    | error e =>
      exact ⟨[], by simp [OscMessage.Push, OscMessage.PushCStyleWString, HEKKYOSC_ASSERT, hc],
        rfl⟩
    | ok r =>
      exact ⟨r.map (· % 256) ++
          List.replicate (utils.GetAlignedStringLength r.length - r.length) 0,
        by simp [OscMessage.Push, OscMessage.PushCStyleWString, HEKKYOSC_ASSERT, hc],
        by simpa using pad_length r.length⟩

theorem PushAll_data (self : OscMessage) (ops : List PushOp) (h : self.m_readonly = false)
    (hops : ∀ d n, PushOp.Blob d n ∉ ops) :
    ∃ seg, (self.PushAll ops).m_data = self.m_data ++ seg ∧ seg.length % 4 = 0 := by
  induction ops generalizing self with
  | nil => exact ⟨[], by simp [OscMessage.PushAll], rfl⟩
  | cons op ops ih =>
    obtain ⟨s1, h1, h2⟩ := Push_data self op h
      (fun d n e => hops d n (e ▸ List.mem_cons_self _ _))
    obtain ⟨s2, h3, h4⟩ := ih (self.Push op).1 (Push_inv self op h).1
      (fun d n e => hops d n (List.mem_cons_of_mem _ e))
    refine ⟨s1 ++ s2, ?_, ?_⟩
    · simp only [OscMessage.PushAll, h3, h1, List.append_assoc]
    · simp only [List.length_append]; omega

theorem PushAll_append (self : OscMessage) (pre : List PushOp) (op : PushOp) :
    self.PushAll (pre ++ [op]) = ((self.PushAll pre).Push op).1 := by
  induction pre generalizing self with
  | nil => rfl
  | cons p pre ih => exact ih (self.Push p).1

/-- C9: for a message built on an address by any sequence of int32, int64,
float32, float64, boolean and string pushes (no blob) and then finalized, the
address segment and the type-tag segment written by `GetBytes` each have a
length that is a multiple of 4; every push of the sequence, the string pushes
among them, appended to the payload a segment whose length is a multiple of 4;
the bytes returned are the two header segments followed by the payload, and
the size returned is their length and a multiple of 4. -/
theorem encoded_alignment (address : List Nat) (ops : List PushOp) (m0 : OscMessage)
    (hm : OscMessage.OscMessage_address address = .ok m0)
    (hops : ∀ d n, PushOp.Blob d n ∉ ops) :
    (m0.PushAll ops).addressSegment.length % 4 = 0 ∧
      (m0.PushAll ops).typeSegment.length % 4 = 0 ∧
      (∀ pre op post, ops = pre ++ op :: post →
        ∃ seg, (m0.PushAll (pre ++ [op])).m_data = (m0.PushAll pre).m_data ++ seg ∧
          seg.length % 4 = 0) ∧
      (m0.PushAll ops).GetBytes.2.1 =
        (m0.PushAll ops).addressSegment ++ (m0.PushAll ops).typeSegment
          ++ (m0.PushAll ops).m_data ∧
      (m0.PushAll ops).GetBytes.2.2 = (m0.PushAll ops).GetBytes.2.1.length ∧
      (m0.PushAll ops).GetBytes.2.2 % 4 = 0 := by
  have hro : m0.m_readonly = false ∧ m0.m_data = [] := by
    simp only [OscMessage.OscMessage_address, HEKKYOSC_ASSERT] at hm
    split at hm
    · cases hm
    · split at hm
      · cases hm
      · cases hm; exact ⟨rfl, rfl⟩
  have ha : (m0.PushAll ops).addressSegment.length % 4 = 0 := by
    simpa [OscMessage.addressSegment] using pad_length (m0.PushAll ops).m_address.length
  have ht : (m0.PushAll ops).typeSegment.length % 4 = 0 := by
    simpa [OscMessage.typeSegment] using pad_length (m0.PushAll ops).m_type.length
  obtain ⟨seg, hseg, hseg4⟩ := PushAll_data m0 ops hro.1 hops
  refine ⟨ha, ht, ?_, rfl, rfl, ?_⟩
  · intro pre op post hsplit
    rw [PushAll_append]
    refine Push_data _ op (PushAll_inv m0 pre hro.1).1 (fun d n e => hops d n ?_)
    rw [hsplit, e]; simp
  · have : (m0.PushAll ops).GetBytes.2.2 =
        (m0.PushAll ops).addressSegment.length + (m0.PushAll ops).typeSegment.length
          + (m0.PushAll ops).m_data.length := by
      simp [OscMessage.GetBytes, Nat.add_assoc]
    rw [this, hseg, hro.2]
    simp only [List.nil_append]
    omega

theorem encoded_alignment_witness :
    ((OscMessage.mk false [47, 97] [44] []).PushAll
        [.Int32 5, .String [104, 105], .Boolean true]).addressSegment.length % 4 = 0 ∧
      ((OscMessage.mk false [47, 97] [44] []).PushAll
        [.Int32 5, .String [104, 105], .Boolean true]).typeSegment.length % 4 = 0 ∧
      (∀ pre op post, [.Int32 5, .String [104, 105], .Boolean true] = pre ++ op :: post →
        ∃ seg, ((OscMessage.mk false [47, 97] [44] []).PushAll (pre ++ [op])).m_data =
            ((OscMessage.mk false [47, 97] [44] []).PushAll pre).m_data ++ seg ∧
          seg.length % 4 = 0) ∧
      ((OscMessage.mk false [47, 97] [44] []).PushAll
          [.Int32 5, .String [104, 105], .Boolean true]).GetBytes.2.1 =
        ((OscMessage.mk false [47, 97] [44] []).PushAll
            [.Int32 5, .String [104, 105], .Boolean true]).addressSegment
          ++ ((OscMessage.mk false [47, 97] [44] []).PushAll
            [.Int32 5, .String [104, 105], .Boolean true]).typeSegment
          ++ ((OscMessage.mk false [47, 97] [44] []).PushAll
            [.Int32 5, .String [104, 105], .Boolean true]).m_data ∧
      ((OscMessage.mk false [47, 97] [44] []).PushAll
          [.Int32 5, .String [104, 105], .Boolean true]).GetBytes.2.2 =
        ((OscMessage.mk false [47, 97] [44] []).PushAll
          [.Int32 5, .String [104, 105], .Boolean true]).GetBytes.2.1.length ∧
      ((OscMessage.mk false [47, 97] [44] []).PushAll
          [.Int32 5, .String [104, 105], .Boolean true]).GetBytes.2.2 % 4 = 0 :=
  encoded_alignment [47, 97] [.Int32 5, .String [104, 105], .Boolean true]
    (OscMessage.mk false [47, 97] [44] []) rfl (by simp)

/-! ## The offset walk of the decoder on encoded strings -/

theorem stringSegment_length (s : List Nat) :
    (stringSegment s).length = utils.GetAlignedStringLength s.length := by
  have := aligned_gt s.length
  simp only [stringSegment, List.length_append, List.length_replicate]
  omega

theorem stringSegment_eq (s : List Nat) :
    stringSegment s =
      s ++ 0 :: List.replicate (utils.GetAlignedStringLength s.length - s.length - 1) 0 := by
  rw [stringSegment, replicate_pad]

theorem stringSegments_append (xs ys : List (List Nat)) :
    stringSegments (xs ++ ys) = stringSegments xs ++ stringSegments ys := by
  induction xs with
  | nil => rfl
  | cons x xs ih => simp [stringSegments, ih]

theorem stringSegments_length_mod (xs : List (List Nat)) :
    (stringSegments xs).length % 4 = 0 := by
  induction xs with
  | nil => rfl
  | cons x xs ih =>
    have := aligned_mod x.length
    simp only [stringSegments, List.length_append, stringSegment_length]
    omega

theorem PushAll_strings (self : OscMessage) (strs : List (List Nat))
    (h : self.m_readonly = false) :
    self.PushAll (strs.map PushOp.String) =
      { self with
        m_data := self.m_data ++ stringSegments strs,
        m_type := self.m_type ++ List.replicate strs.length 115 } := by
  induction strs generalizing self with
  | nil => simp [OscMessage.PushAll, stringSegments]
  | cons s strs ih =>
    have h1 : (self.Push (PushOp.String s)).1 =
        { self with m_data := self.m_data ++ stringSegment s, m_type := self.m_type ++ [115] } := by
      simp [OscMessage.Push, OscMessage.PushString, HEKKYOSC_ASSERT, h, stringSegment]
    simp only [List.map_cons, OscMessage.PushAll, h1]
    rw [ih (OscMessage.mk self.m_readonly self.m_address (self.m_type ++ [115])
      (self.m_data ++ stringSegment s)) h]
    simp [stringSegments, List.replicate_succ]

theorem get_argument_start_point_loop_zero (self : OscMessage) (ts : List Nat) (p : Nat) :
    OscMessage.get_argument_start_point_loop self ts 0 p = .ok p := by
  cases ts <;> rfl

theorem get_string_length_segment (dec : OscMessage) (pre s rest : List Nat)
    (hdata : dec.m_data = pre ++ (stringSegment s ++ rest)) (hpre : pre.length % 4 = 0)
    (hs : 0 ∉ s) :
    dec.get_string_length pre.length = .ok (pre.length + (stringSegment s).length) := by
  rw [OscMessage.get_string_length, hdata, List.drop_left, stringSegment_eq, List.append_assoc,
    List.cons_append, scanTo_append 0 _ s _ pre.length hs]
  simp only
  rw [alignLoop_eq pre.length s.length hpre, ← stringSegment_eq, stringSegment_length]

theorem get_argument_start_point_loop_strings (dec : OscMessage) (strs : List (List Nat))
    (ts pre post : List Nat) (k : Nat)
    (hdata : dec.m_data = pre ++ (stringSegments strs ++ post)) (hpre : pre.length % 4 = 0)
    (hstrs : ∀ s ∈ strs, 0 ∉ s) (hk : k ≤ strs.length) :
    OscMessage.get_argument_start_point_loop dec (List.replicate strs.length 115 ++ ts) k
        pre.length =
      .ok (pre.length + (stringSegments (strs.take k)).length) := by
  induction strs generalizing pre k with
  | nil =>
    have hk0 : k = 0 := by simpa using hk
    subst hk0
    rw [get_argument_start_point_loop_zero]
    rfl
  | cons s strs ih =>
    cases k with
    | zero =>
      rw [get_argument_start_point_loop_zero]
      rfl
    | succ k =>
      have hs : 0 ∉ s := hstrs s (List.mem_cons_self _ _)
      have hdata1 : dec.m_data = pre ++ (stringSegment s ++ (stringSegments strs ++ post)) := by
        rw [hdata, stringSegments, List.append_assoc]
      have hdata2 : dec.m_data = (pre ++ stringSegment s) ++ (stringSegments strs ++ post) := by
        rw [hdata1, List.append_assoc]
      have hlen2 : (pre ++ stringSegment s).length = pre.length + (stringSegment s).length :=
        List.length_append _ _
      have hpre2 : (pre ++ stringSegment s).length % 4 = 0 := by
        have := aligned_mod s.length
        rw [hlen2, stringSegment_length]
        omega
      have hstep := get_string_length_segment dec pre s _ hdata1 hpre hs
      have hrec := ih (pre ++ stringSegment s) k hdata2 hpre2
        (fun x hx => hstrs x (List.mem_cons_of_mem _ hx))
        (by simpa using hk)
      simp only [List.length_cons, List.replicate_succ, List.cons_append,
        OscMessage.get_argument_start_point_loop, hstep]
      simp only [show (115 : Nat) ≠ 105 by decide, show (115 : Nat) ≠ 102 by decide, if_false,
        if_true]
      rw [← hlen2]
      refine Eq.trans hrec ?_
      simp only [List.take_succ_cons, stringSegments, List.length_append]
      exact congrArg Except.ok (by omega)

theorem get_data_start_point_encoded (dec : OscMessage) (a tags rest : List Nat) (pa pt : Nat)
    (hdata : dec.m_data =
      a ++ 0 :: (List.replicate pa 0 ++ ((44 :: tags) ++ 0 :: (List.replicate pt 0 ++ rest))))
    (hcomma : 44 ∉ a) (htags : 0 ∉ tags)
    (hpa : a.length + 1 + pa = utils.GetAlignedStringLength a.length) :
    dec.get_data_start_point =
      .ok (utils.GetAlignedStringLength a.length
        + utils.GetAlignedStringLength (44 :: tags).length) := by
  have hpre : 44 ∉ a ++ 0 :: List.replicate pa 0 := by
    simp only [List.mem_append, List.mem_cons, List.mem_replicate, not_or]
    exact ⟨hcomma, by decide, fun h => by omega⟩
  have hprelen : (a ++ 0 :: List.replicate pa 0).length = utils.GetAlignedStringLength a.length := by
    simp only [List.length_append, List.length_cons, List.length_replicate]; omega
  have e1 : dec.m_data = (a ++ 0 :: List.replicate pa 0) ++
      44 :: (tags ++ 0 :: (List.replicate pt 0 ++ rest)) := by
    rw [hdata]; simp
  have htags2 : 0 ∉ 44 :: tags := by
    simp only [List.mem_cons, not_or]; exact ⟨by decide, htags⟩
  have e2 : (44 :: (tags ++ 0 :: (List.replicate pt 0 ++ rest))) =
      (44 :: tags) ++ 0 :: (List.replicate pt 0 ++ rest) := by simp
  rw [OscMessage.get_data_start_point, e1, scanTo_append 44 _ _ _ 0 hpre]
  simp only [Nat.zero_add]
  rw [List.drop_left, e2, scanTo_append 0 _ _ _ _ htags2]
  simp only
  rw [hprelen, alignLoop_eq _ _ (aligned_mod a.length)]

theorem get_string_encoded (dec : OscMessage) (a : List Nat) (strs : List (List Nat))
    (pa pt k : Nat) (hk : k < strs.length)
    (htype : dec.m_type = List.replicate strs.length 115)
    (hdata : dec.m_data =
      a ++ 0 :: (List.replicate pa 0 ++ ((44 :: List.replicate strs.length 115) ++
        0 :: (List.replicate pt 0 ++ stringSegments strs))))
    (hcomma : 44 ∉ a) (hstrs : ∀ s ∈ strs, 0 ∉ s)
    (hpa : a.length + 1 + pa = utils.GetAlignedStringLength a.length)
    (hpt : (44 :: List.replicate strs.length 115).length + 1 + pt =
      utils.GetAlignedStringLength (44 :: List.replicate strs.length 115).length) :
    dec.get_string k = .ok strs[k] := by
  have htags : 0 ∉ List.replicate strs.length 115 := by
    simp only [List.mem_replicate, not_and]; intro _ h; omega
  have hstart := get_data_start_point_encoded dec a _ _ pa pt hdata hcomma htags hpa
  have hdata2 : dec.m_data =
      (a ++ 0 :: (List.replicate pa 0 ++ ((44 :: List.replicate strs.length 115) ++
        0 :: List.replicate pt 0))) ++ (stringSegments strs ++ []) := by
    rw [hdata]; simp
  have hprelen : (a ++ 0 :: (List.replicate pa 0 ++ ((44 :: List.replicate strs.length 115) ++
        0 :: List.replicate pt 0))).length =
      utils.GetAlignedStringLength a.length +
        utils.GetAlignedStringLength (44 :: List.replicate strs.length 115).length := by
    simp only [List.length_append, List.length_cons, List.length_replicate] at hpt ⊢
    omega
  have hpre4 : (a ++ 0 :: (List.replicate pa 0 ++ ((44 :: List.replicate strs.length 115) ++
        0 :: List.replicate pt 0))).length % 4 = 0 := by
    have h1 := aligned_mod a.length
    have h2 := aligned_mod (44 :: List.replicate strs.length 115).length
    rw [hprelen]; omega
  have hwalk := get_argument_start_point_loop_strings dec strs [] _ [] k hdata2 hpre4 hstrs
    (Nat.le_of_lt hk)
  rw [List.append_nil, hprelen] at hwalk
  have hsplit : strs = strs.take k ++ strs[k] :: strs.drop (k + 1) := by
    rw [List.getElem_cons_drop _ _ hk, List.take_append_drop]
  have hsegs : stringSegments strs =
      stringSegments (strs.take k) ++
        (strs[k] ++ 0 :: (List.replicate
          (utils.GetAlignedStringLength strs[k].length - strs[k].length - 1) 0
            ++ stringSegments (strs.drop (k + 1)))) := by
    conv_lhs => rw [hsplit]
    rw [stringSegments_append, stringSegments, stringSegment_eq]
    simp
  rw [OscMessage.get_string, OscMessage.get_argument_start_point, hstart]
  simp only
  rw [htype, hwalk]
  simp only
  rw [hdata2, ← hprelen, List.append_nil, List.drop_append, hsegs, List.drop_left]
  exact cstr_append _ _ (hstrs _ (List.getElem_mem _))

/-- C2: for every valid address without NUL and without `,` and every list of
NUL-free strings, pushing them in order with `PushString`, serialising with
`GetBytes` and constructing a message from exactly those bytes succeeds, and
`get_string(k)` on it returns the `k`-th string for every index `k` of the
list, empty strings included. -/
theorem string_roundtrip (address : List Nat) (strs : List (List Nat)) (k : Nat)
    (hlen : address.length > 1) (hslash : address.head? = some 47) (hnul : 0 ∉ address)
    (hcomma : 44 ∉ address) (hstrs : ∀ s ∈ strs, 0 ∉ s) (hk : k < strs.length) :
    ∃ dec, encodeDecode address (strs.map PushOp.String) = .ok dec ∧
      dec.get_string k = .ok strs[k] := by
  have hm := PushAll_strings (OscMessage.mk false address [44] []) strs rfl
  simp only [List.nil_append, List.singleton_append] at hm
  have htags : 0 ∉ List.replicate strs.length 115 := by
    simp only [List.mem_replicate, not_and]; intro _ h; omega
  obtain ⟨pa, pt, hshape, hpa, hpt, -⟩ := GetBytes_shape
    ((OscMessage.mk false address [44] []).PushAll (strs.map PushOp.String))
  obtain ⟨t, ht, hdec⟩ := OscMessage_buffer_GetBytes
    ((OscMessage.mk false address [44] []).PushAll (strs.map PushOp.String))
    (by rw [hm]; exact hlen) (by rw [hm]; exact hslash) (by rw [hm]; exact hnul)
  have ht2 := get_type_list_GetBytes
    ((OscMessage.mk false address [44] []).PushAll (strs.map PushOp.String))
    (List.replicate strs.length 115) (by rw [hm]; exact hcomma) (by rw [hm]) htags
  rw [ht2] at ht
  cases ht
  have h1 : encodeDecode address (strs.map PushOp.String) = .ok (OscMessage.mk false
      ((OscMessage.mk false address [44] []).PushAll (strs.map PushOp.String)).m_address
      (List.replicate strs.length 115)
      ((OscMessage.mk false address [44] []).PushAll (strs.map PushOp.String)).GetBytes.2.1) := by
    simp only [encodeDecode, encode_eq address _ hlen hslash]
    exact hdec
  refine ⟨_, h1, ?_⟩
  have hA : ((OscMessage.mk false address [44] []).PushAll (strs.map PushOp.String)).m_address
      = address := by rw [hm]
  have hT : ((OscMessage.mk false address [44] []).PushAll (strs.map PushOp.String)).m_type
      = 44 :: List.replicate strs.length 115 := by rw [hm]
  have hD : ((OscMessage.mk false address [44] []).PushAll (strs.map PushOp.String)).m_data
      = stringSegments strs := by rw [hm]
  rw [hA, hT, hD] at hshape
  rw [hA] at hpa
  rw [hT] at hpt
  exact get_string_encoded _ address strs pa pt k hk rfl hshape hcomma hstrs hpa hpt

theorem string_roundtrip_witness :
    ∃ dec, encodeDecode [47, 97]
        ([[104, 105], [], [97, 44, 98, 99]].map PushOp.String) = .ok dec ∧
      dec.get_string 2 = .ok [[104, 105], [], [97, 44, 98, 99]][2] :=
  string_roundtrip [47, 97] [[104, 105], [], [97, 44, 98, 99]] 2
    (by decide) rfl (by decide) (by decide) (by decide) (by decide)

/-- C1: evaluation at the failing input.  On the address `/a`, after
`PushInt32(256)`, `GetBytes` and the construction of a message from those
bytes, `get_int(0)` returns 0 and not 256: its `uint8_t` result keeps the last
of the four argument bytes only.  Likewise `PushInt32(-2)` reads back as
254. -/
theorem get_int_roundtrip_truncates :
    encodeDecode [47, 97] [.Int32 256] =
        .ok (OscMessage.mk false [47, 97] [105] [47, 97, 0, 0, 44, 105, 0, 0, 0, 0, 1, 0]) ∧
      (OscMessage.mk false [47, 97] [105] [47, 97, 0, 0, 44, 105, 0, 0, 0, 0, 1, 0]).get_int 0
        = .ok 0 ∧
      encodeDecode [47, 97] [.Int32 (-2)] =
        .ok (OscMessage.mk false [47, 97] [105]
          [47, 97, 0, 0, 44, 105, 0, 0, 255, 255, 255, 254]) ∧
      (OscMessage.mk false [47, 97] [105]
          [47, 97, 0, 0, 44, 105, 0, 0, 255, 255, 255, 254]).get_int 0 = .ok 254 := by
  refine ⟨rfl, rfl, rfl, rfl⟩

/-! ## String and float pushes -/

/-- C11: on a build-phase message with payload `p`, `PushString(s)` for a
narrow string `s` of length `n` leaves the payload `p`, the bytes of `s`, then
`k = 4 - n mod 4` zero bytes, where `1 ≤ k ≤ 4` and `n + k` is the smallest
multiple of 4 strictly greater than `n`, and appends exactly `s` (115) to the
type tags; `PushStringRef` gives the same result, and `PushCStyleString` and
`PushCStyleStringRef` give the corresponding result for the characters `c`
their argument holds before its terminator. -/
theorem PushString_padding (self : OscMessage) (s data c : List Nat)
    (hbuild : self.m_readonly = false) (hdata : cstr data = .ok c) :
    (1 ≤ 4 - s.length % 4 ∧ 4 - s.length % 4 ≤ 4 ∧
      IsAlignedLength s.length (s.length + (4 - s.length % 4))) ∧
    self.PushString s =
      ({ self with m_data := self.m_data ++ s ++ List.replicate (4 - s.length % 4) 0,
                   m_type := self.m_type ++ [115] },
       .ok { self with m_data := self.m_data ++ s ++ List.replicate (4 - s.length % 4) 0,
                       m_type := self.m_type ++ [115] }) ∧
    self.PushStringRef s = self.PushString s ∧
    self.PushCStyleString data = self.PushString c ∧
    self.PushCStyleStringRef data = self.PushString c := by
  refine ⟨⟨by omega, by omega, ?_⟩, ?_, ?_, ?_, ?_⟩
  · rw [← aligned_pad]; exact aligned_isAligned _
  · simp [OscMessage.PushString, HEKKYOSC_ASSERT, hbuild, aligned_pad]
  · rfl
  · simp [OscMessage.PushCStyleString, OscMessage.PushString, HEKKYOSC_ASSERT, hbuild, hdata]
  · simp [OscMessage.PushCStyleStringRef, OscMessage.PushString, HEKKYOSC_ASSERT, hbuild, hdata]

theorem PushString_padding_witness :
    (1 ≤ 4 - [104, 105].length % 4 ∧ 4 - [104, 105].length % 4 ≤ 4 ∧
      IsAlignedLength [104, 105].length ([104, 105].length + (4 - [104, 105].length % 4))) ∧
    (OscMessage.mk false [47, 97] [44] [7]).PushString [104, 105] =
      ({ (OscMessage.mk false [47, 97] [44] [7]) with
          m_data := (OscMessage.mk false [47, 97] [44] [7]).m_data ++ [104, 105]
            ++ List.replicate (4 - [104, 105].length % 4) 0,
          m_type := (OscMessage.mk false [47, 97] [44] [7]).m_type ++ [115] },
       .ok { (OscMessage.mk false [47, 97] [44] [7]) with
          m_data := (OscMessage.mk false [47, 97] [44] [7]).m_data ++ [104, 105]
            ++ List.replicate (4 - [104, 105].length % 4) 0,
          m_type := (OscMessage.mk false [47, 97] [44] [7]).m_type ++ [115] }) ∧
    (OscMessage.mk false [47, 97] [44] [7]).PushStringRef [104, 105] =
      (OscMessage.mk false [47, 97] [44] [7]).PushString [104, 105] ∧
    (OscMessage.mk false [47, 97] [44] [7]).PushCStyleString [97, 98, 99, 100, 0, 9] =
      (OscMessage.mk false [47, 97] [44] [7]).PushString [97, 98, 99, 100] ∧
    (OscMessage.mk false [47, 97] [44] [7]).PushCStyleStringRef [97, 98, 99, 100, 0, 9] =
      (OscMessage.mk false [47, 97] [44] [7]).PushString [97, 98, 99, 100] :=
  PushString_padding (OscMessage.mk false [47, 97] [44] [7]) [104, 105]
    [97, 98, 99, 100, 0, 9] [97, 98, 99, 100] rfl rfl

theorem isinf32_iff (x : Nat) (hx : x < 2 ^ 32) :
    isinf32 x = true ↔ (x = 0x7F800000 ∨ x = 0xFF800000) := by
  simp only [isinf32, beq_iff_eq]; omega

theorem isinf64_iff (y : Nat) (hy : y < 2 ^ 64) :
    isinf64 y = true ↔ (y = 0x7FF0000000000000 ∨ y = 0xFFF0000000000000) := by
  simp only [isinf64, beq_iff_eq]; omega

/-- C12: on a build-phase message, `PushFloat32` (`PushFloat64`) of a bit
pattern that is positive or negative infinity appends exactly `I` (73) to the
type tags and leaves the payload unchanged; for every other 32-bit pattern
`PushFloat32` appends exactly 4 payload bytes and `f` (102), and for every
other 64-bit pattern `PushFloat64` appends exactly 8 payload bytes and `d`
(100). -/
theorem PushFloat_infinity (self : OscMessage) (x y : Nat)
    (hbuild : self.m_readonly = false) (hx : x < 2 ^ 32) (hy : y < 2 ^ 64) :
    ((x = 0x7F800000 ∨ x = 0xFF800000) →
      self.PushFloat32 x = ({ self with m_type := self.m_type ++ [73] },
        .ok { self with m_type := self.m_type ++ [73] })) ∧
    (¬ (x = 0x7F800000 ∨ x = 0xFF800000) →
      ∃ bs : List Nat, bs.length = 4 ∧
        self.PushFloat32 x =
          ({ self with m_data := self.m_data ++ bs, m_type := self.m_type ++ [102] },
           .ok { self with m_data := self.m_data ++ bs, m_type := self.m_type ++ [102] })) ∧
    ((y = 0x7FF0000000000000 ∨ y = 0xFFF0000000000000) →
      self.PushFloat64 y = ({ self with m_type := self.m_type ++ [73] },
        .ok { self with m_type := self.m_type ++ [73] })) ∧
    (¬ (y = 0x7FF0000000000000 ∨ y = 0xFFF0000000000000) →
      ∃ bs : List Nat, bs.length = 8 ∧
        self.PushFloat64 y =
          ({ self with m_data := self.m_data ++ bs, m_type := self.m_type ++ [100] },
           .ok { self with m_data := self.m_data ++ bs, m_type := self.m_type ++ [100] })) := by
  refine ⟨?_, ?_, ?_, ?_⟩
  · intro h
    have hi := (isinf32_iff x hx).mpr h
    simp [OscMessage.PushFloat32, HEKKYOSC_ASSERT, hbuild, hi]
  · intro h
    have hi : ¬ isinf32 x = true := fun hi => h ((isinf32_iff x hx).mp hi)
    exact ⟨objectBytes 4 (if utils.IsLittleEndian = true then utils.SwapFloat32 x else x),
      objectBytes_length _ _,
      by simp [OscMessage.PushFloat32, HEKKYOSC_ASSERT, hbuild, hi]⟩
  · intro h
    have hi := (isinf64_iff y hy).mpr h
    simp [OscMessage.PushFloat64, HEKKYOSC_ASSERT, hbuild, hi]
  · intro h
    have hi : ¬ isinf64 y = true := fun hi => h ((isinf64_iff y hy).mp hi)
    exact ⟨objectBytes 8 (if utils.IsLittleEndian = true then utils.SwapFloat64 y else y),
      objectBytes_length _ _,
      by simp [OscMessage.PushFloat64, HEKKYOSC_ASSERT, hbuild, hi]⟩

theorem PushFloat_infinity_witness :
    (OscMessage.mk false [47, 97] [44] [7]).PushFloat32 0xFF800000 =
        (OscMessage.mk false [47, 97] [44, 73] [7],
         .ok (OscMessage.mk false [47, 97] [44, 73] [7])) ∧
      (∃ bs : List Nat, bs.length = 8 ∧
        (OscMessage.mk false [47, 97] [44] [7]).PushFloat64 0x3FF0000000000000 =
          (OscMessage.mk false [47, 97] [44, 100] ([7] ++ bs),
           .ok (OscMessage.mk false [47, 97] [44, 100] ([7] ++ bs)))) :=
  ⟨(PushFloat_infinity (OscMessage.mk false [47, 97] [44] [7]) 0xFF800000 0x3FF0000000000000
      rfl (by decide) (by decide)).1 (Or.inr rfl),
   (PushFloat_infinity (OscMessage.mk false [47, 97] [44] [7]) 0xFF800000 0x3FF0000000000000
      rfl (by decide) (by decide)).2.2.2 (by decide)⟩

/-! ## Construction -/

theorem get_type_list_total_le (buffer : List Nat) (L : Nat) (hL : L ≤ buffer.length) :
    ∃ r, OscMessage.get_type_list buffer L = .ok r := by
  obtain ⟨c, rest, h1, h2⟩ := get_type_list_skip_total L buffer 0 (by omega)
  obtain ⟨r, h3⟩ := get_type_list_read_total L rest c [] h2
  exact ⟨r, by simp [OscMessage.get_type_list, h1, h3]⟩

/-- C18: constructing a message from an address string succeeds if and only if
the address has length above 1 and starts with `/` (47), it fails with the
address assertion otherwise, and on success the message has that address, the
type tags `,`, an empty payload and the flag unset.  Constructing from a
received buffer (of at least the stated length, holding a NUL) succeeds if and
only if the leading NUL-terminated segment meets the same condition, fails with
the address assertion otherwise, and on success the message has that segment
as address and the flag unset. -/
theorem construction_validates_address (address buffer seg : List Nat) (L : Nat)
    (hseg : cstr buffer = .ok seg) (hL : L ≤ buffer.length) :
    ((∃ m, OscMessage.OscMessage_address address = .ok m) ↔
        (address.length > 1 ∧ address.head? = some 47)) ∧
      (¬ (address.length > 1 ∧ address.head? = some 47) →
        OscMessage.OscMessage_address address = .error .InvalidAddress) ∧
      (∀ m, OscMessage.OscMessage_address address = .ok m →
        m = OscMessage.mk false address [44] []) ∧
      ((∃ m, OscMessage.OscMessage_buffer buffer L = .ok m) ↔
        (seg.length > 1 ∧ seg.head? = some 47)) ∧
      (¬ (seg.length > 1 ∧ seg.head? = some 47) →
        OscMessage.OscMessage_buffer buffer L = .error .InvalidAddress) ∧
      (∀ m, OscMessage.OscMessage_buffer buffer L = .ok m →
        m.m_address = seg ∧ m.m_readonly = false) := by
  have hA : ∀ a : List Nat, ¬ (a.length > 1 ∧ a.head? = some 47) →
      (HEKKYOSC_ASSERT (decide (a.length > 1)) .InvalidAddress = .error .InvalidAddress) ∨
      (HEKKYOSC_ASSERT (decide (a.length > 1)) .InvalidAddress = .ok () ∧
        HEKKYOSC_ASSERT (a.head? == some 47) .InvalidAddress = .error .InvalidAddress) := by
    intro a h
    by_cases h1 : a.length > 1
    · have h2 : ¬ a.head? = some 47 := fun h2 => h ⟨h1, h2⟩
      right
      simp [HEKKYOSC_ASSERT, h1, h2]
    · left
      simp [HEKKYOSC_ASSERT, h1]
  have hbadA : ¬ (address.length > 1 ∧ address.head? = some 47) →
      OscMessage.OscMessage_address address = .error .InvalidAddress := by
    intro h
    rcases hA address h with h1 | ⟨h1, h2⟩
    · simp [OscMessage.OscMessage_address, h1]
    · simp [OscMessage.OscMessage_address, h1, h2]
  have hbadB : ¬ (seg.length > 1 ∧ seg.head? = some 47) →
      OscMessage.OscMessage_buffer buffer L = .error .InvalidAddress := by
    intro h
    rcases hA seg h with h1 | ⟨h1, h2⟩
    · simp [OscMessage.OscMessage_buffer, hseg, h1]
    · simp [OscMessage.OscMessage_buffer, hseg, h1, h2]
  obtain ⟨t, ht⟩ := get_type_list_total_le buffer L hL
  have hgoodB : (seg.length > 1 ∧ seg.head? = some 47) →
      OscMessage.OscMessage_buffer buffer L =
        .ok (OscMessage.mk false seg t (buffer.take L)) := by
    intro h
    simp [OscMessage.OscMessage_buffer, hseg, HEKKYOSC_ASSERT, h.1, h.2, ht,
      OscMessage.get_data, hL]
  refine ⟨⟨?_, ?_⟩, hbadA, ?_, ⟨?_, ?_⟩, hbadB, ?_⟩
  · rintro ⟨m, hm⟩
    by_contra h
    rw [hbadA h] at hm
    cases hm
  · intro h
    exact ⟨_, OscMessage_address_ok address h.1 h.2⟩
  · intro m hm
    by_cases h : address.length > 1 ∧ address.head? = some 47
    · rw [OscMessage_address_ok address h.1 h.2] at hm
      cases hm; rfl
    · rw [hbadA h] at hm
      cases hm
  · rintro ⟨m, hm⟩
    by_contra h
    rw [hbadB h] at hm
    cases hm
  · intro h
    exact ⟨_, hgoodB h⟩
  · intro m hm
    by_cases h : seg.length > 1 ∧ seg.head? = some 47
    · rw [hgoodB h] at hm
      cases hm; exact ⟨rfl, rfl⟩
    · rw [hbadB h] at hm
      cases hm

theorem construction_validates_address_witness :
    ((∃ m, OscMessage.OscMessage_address [47, 97] = .ok m) ↔
        ([47, 97].length > 1 ∧ [47, 97].head? = some 47)) ∧
      (¬ ([47, 97].length > 1 ∧ [47, 97].head? = some 47) →
        OscMessage.OscMessage_address [47, 97] = .error .InvalidAddress) ∧
      (∀ m, OscMessage.OscMessage_address [47, 97] = .ok m →
        m = OscMessage.mk false [47, 97] [44] []) ∧
      ((∃ m, OscMessage.OscMessage_buffer [97, 98, 0, 0, 44, 0, 0, 0] 8 = .ok m) ↔
        ([97, 98].length > 1 ∧ [97, 98].head? = some 47)) ∧
      (¬ ([97, 98].length > 1 ∧ [97, 98].head? = some 47) →
        OscMessage.OscMessage_buffer [97, 98, 0, 0, 44, 0, 0, 0] 8 = .error .InvalidAddress) ∧
      (∀ m, OscMessage.OscMessage_buffer [97, 98, 0, 0, 44, 0, 0, 0] 8 = .ok m →
        m.m_address = [97, 98] ∧ m.m_readonly = false) :=
  construction_validates_address [47, 97] [97, 98, 0, 0, 44, 0, 0, 0] [97, 98] 8 rfl
    (by decide)

/-- C19: the message on `/foo` with `PushInt32(42)`, `PushString("hi")`,
`PushBoolean(true)` has the type tags `,isT`; `GetBytes` returns the 24 bytes
`/foo` 00 00 00 00 `,isT` 00 00 00 00 00 00 00 2A `hi` 00 00; the message
constructed from those bytes returns 42 for `get_int(0)` and `hi` for
`get_string(1)`, and its argument offsets 1, 2 and 3 are 20, 24 and 24. -/
theorem worked_example :
    OscMessage.OscMessage_address [47, 102, 111, 111] =
        .ok (OscMessage.mk false [47, 102, 111, 111] [44] []) ∧
      ((OscMessage.mk false [47, 102, 111, 111] [44] []).PushAll
          [.Int32 42, .String [104, 105], .Boolean true]).GetTypeList = [44, 105, 115, 84] ∧
      ((OscMessage.mk false [47, 102, 111, 111] [44] []).PushAll
          [.Int32 42, .String [104, 105], .Boolean true]).GetBytes.2 =
        ([47, 102, 111, 111, 0, 0, 0, 0, 44, 105, 115, 84, 0, 0, 0, 0,
          0, 0, 0, 42, 104, 105, 0, 0], 24) ∧
      OscMessage.OscMessage_buffer
          [47, 102, 111, 111, 0, 0, 0, 0, 44, 105, 115, 84, 0, 0, 0, 0,
            0, 0, 0, 42, 104, 105, 0, 0] 24 =
        .ok (OscMessage.mk false [47, 102, 111, 111] [105, 115, 84]
          [47, 102, 111, 111, 0, 0, 0, 0, 44, 105, 115, 84, 0, 0, 0, 0,
            0, 0, 0, 42, 104, 105, 0, 0]) ∧
      (OscMessage.mk false [47, 102, 111, 111] [105, 115, 84]
          [47, 102, 111, 111, 0, 0, 0, 0, 44, 105, 115, 84, 0, 0, 0, 0,
            0, 0, 0, 42, 104, 105, 0, 0]).get_int 0 = .ok 42 ∧
      (OscMessage.mk false [47, 102, 111, 111] [105, 115, 84]
          [47, 102, 111, 111, 0, 0, 0, 0, 44, 105, 115, 84, 0, 0, 0, 0,
            0, 0, 0, 42, 104, 105, 0, 0]).get_string 1 = .ok [104, 105] ∧
      (OscMessage.mk false [47, 102, 111, 111] [105, 115, 84]
          [47, 102, 111, 111, 0, 0, 0, 0, 44, 105, 115, 84, 0, 0, 0, 0,
            0, 0, 0, 42, 104, 105, 0, 0]).get_argument_start_point 1 = .ok 20 ∧
      (OscMessage.mk false [47, 102, 111, 111] [105, 115, 84]
          [47, 102, 111, 111, 0, 0, 0, 0, 44, 105, 115, 84, 0, 0, 0, 0,
            0, 0, 0, 42, 104, 105, 0, 0]).get_argument_start_point 2 = .ok 24 ∧
      (OscMessage.mk false [47, 102, 111, 111] [105, 115, 84]
          [47, 102, 111, 111, 0, 0, 0, 0, 44, 105, 115, 84, 0, 0, 0, 0,
            0, 0, 0, 42, 104, 105, 0, 0]).get_argument_start_point 3 = .ok 24 := by
  refine ⟨rfl, rfl, rfl, rfl, rfl, rfl, rfl, rfl, rfl⟩

/-- C16: evaluation at the failing input.  A message constructed from the 8
bytes `/a` 00 00 `,i` 00 00, which end right after the type-tag segment, is
accepted; `get_int(0)`, `get_float(0)` and `get_double(0)` on it resolve the
offset 8 and read `m_data[8]` through the unchecked `operator[]`, past the end
of the stored buffer, and so does `get_string(0)` on the like buffer with the
tag `s`: no `TruncatedMessage` error is raised. -/
theorem getters_read_past_buffer_end :
    OscMessage.OscMessage_buffer [47, 97, 0, 0, 44, 105, 0, 0] 8 =
        .ok (OscMessage.mk false [47, 97] [105] [47, 97, 0, 0, 44, 105, 0, 0]) ∧
      (OscMessage.mk false [47, 97] [105] [47, 97, 0, 0, 44, 105, 0, 0]).get_argument_start_point 0
        = .ok 8 ∧
      (OscMessage.mk false [47, 97] [105] [47, 97, 0, 0, 44, 105, 0, 0]).index 8
        = .error .OutOfBounds ∧
      (OscMessage.mk false [47, 97] [105] [47, 97, 0, 0, 44, 105, 0, 0]).get_int 0
        = .error .OutOfBounds ∧
      (OscMessage.mk false [47, 97] [105] [47, 97, 0, 0, 44, 105, 0, 0]).get_float 0
        = .error .OutOfBounds ∧
      (OscMessage.mk false [47, 97] [105] [47, 97, 0, 0, 44, 105, 0, 0]).get_double 0
        = .error .OutOfBounds ∧
      OscMessage.OscMessage_buffer [47, 97, 0, 0, 44, 115, 0, 0] 8 =
        .ok (OscMessage.mk false [47, 97] [115] [47, 97, 0, 0, 44, 115, 0, 0]) ∧
      (OscMessage.mk false [47, 97] [115] [47, 97, 0, 0, 44, 115, 0, 0]).get_string 0
        = .error .OutOfBounds := by
  refine ⟨rfl, rfl, rfl, rfl, rfl, rfl, rfl, rfl⟩

theorem get_type_list_skip_no_comma (L : Nat) (buffer : List Nat) (ctr : Nat)
    (hcomma : 44 ∉ buffer) (hctr : ctr ≤ L) (hL : L ≤ ctr + buffer.length) :
    ∃ rest, OscMessage.get_type_list_skip L buffer ctr = .ok (L + 1, rest) := by
  induction buffer generalizing ctr with
  | nil =>
    have h1 : ctr = L := by simp at hL; omega
    subst h1
    exact ⟨[], by simp [OscMessage.get_type_list_skip]⟩
  | cons b buffer ih =>
    have hb : b ≠ 44 := fun hb => hcomma (hb ▸ List.mem_cons_self _ _)
    have hs : 44 ∉ buffer := fun hs => hcomma (List.mem_cons_of_mem _ hs)
    simp only [List.length_cons] at hL
    by_cases h1 : ctr < L
    · obtain ⟨rest, h2⟩ := ih (ctr + 1) hs (by omega) (by omega)
      exact ⟨rest, by simp [OscMessage.get_type_list_skip, h1, hb, h2]⟩
    · have h2 : ctr = L := by omega
      subst h2
      exact ⟨b :: buffer, by simp [OscMessage.get_type_list_skip]⟩

theorem get_type_list_no_comma (buffer : List Nat) (L : Nat) (hcomma : 44 ∉ buffer)
    (hL : L ≤ buffer.length) : OscMessage.get_type_list buffer L = .ok [] := by
  obtain ⟨rest, h1⟩ := get_type_list_skip_no_comma L buffer 0 hcomma (Nat.zero_le _) (by omega)
  rw [OscMessage.get_type_list, h1]
  cases rest <;> simp [OscMessage.get_type_list_read]

/-- C17 (as amended): for every buffer whose leading NUL-terminated segment is
a valid address and which holds no `,` byte, constructing a message from the
buffer (with a length within the buffer) ends and succeeds: the message has the
leading segment as address, an empty type list, and the first `buffer_length`
bytes as stored data. -/
theorem buffer_without_comma_accepted (buffer seg : List Nat) (L : Nat)
    (hseg : cstr buffer = .ok seg) (hlen : seg.length > 1) (hslash : seg.head? = some 47)
    (hcomma : 44 ∉ buffer) (hL : L ≤ buffer.length) :
    OscMessage.OscMessage_buffer buffer L =
      .ok (OscMessage.mk false seg [] (buffer.take L)) := by
  simp [OscMessage.OscMessage_buffer, hseg, HEKKYOSC_ASSERT, hlen, hslash,
    get_type_list_no_comma buffer L hcomma hL, OscMessage.get_data, hL]

theorem buffer_without_comma_accepted_witness :
    OscMessage.OscMessage_buffer [47, 97, 0, 0, 105, 0, 0, 0, 0, 0, 0, 5] 12 =
      .ok (OscMessage.mk false [47, 97] []
        ([47, 97, 0, 0, 105, 0, 0, 0, 0, 0, 0, 5].take 12)) :=
  buffer_without_comma_accepted [47, 97, 0, 0, 105, 0, 0, 0, 0, 0, 0, 5] [47, 97] 12 rfl
    (by decide) rfl (by decide) (by decide)

/-- C17, the claim as stated fails: the 12-byte buffer `/a` 00 00 `i` 00 00 00
00 00 00 05 has the valid leading segment `/a` and no `,` byte anywhere, and
constructing a message from it does not fail: it yields a message with the
address `/a` and an empty type list. -/
theorem buffer_without_comma_not_rejected :
    cstr [47, 97, 0, 0, 105, 0, 0, 0, 0, 0, 0, 5] = .ok [47, 97] ∧
      44 ∉ [47, 97, 0, 0, 105, 0, 0, 0, 0, 0, 0, 5] ∧
      OscMessage.OscMessage_buffer [47, 97, 0, 0, 105, 0, 0, 0, 0, 0, 0, 5] 12 =
        .ok (OscMessage.mk false [47, 97] [] [47, 97, 0, 0, 105, 0, 0, 0, 0, 0, 0, 5]) ∧
      ¬ (∃ e, OscMessage.OscMessage_buffer [47, 97, 0, 0, 105, 0, 0, 0, 0, 0, 0, 5] 12 =
        .error e) := by
  refine ⟨rfl, by decide, rfl, ?_⟩
  rintro ⟨e, he⟩
  have h : OscMessage.OscMessage_buffer [47, 97, 0, 0, 105, 0, 0, 0, 0, 0, 0, 5] 12 =
      .ok (OscMessage.mk false [47, 97] [] [47, 97, 0, 0, 105, 0, 0, 0, 0, 0, 0, 5]) := rfl
  rw [h] at he
  cases he

/-! ## The offset walk, one tag at a time -/

theorem get_argument_start_point_loop_cons (self : OscMessage) (t : Nat) (ts : List Nat)
    (n p : Nat) :
    OscMessage.get_argument_start_point_loop self (t :: ts) (n + 1) p =
      match get_argument_start_point_case self t p with
      | .error e => .error e
      | .ok q => OscMessage.get_argument_start_point_loop self ts n q := by
  rw [OscMessage.get_argument_start_point_loop, get_argument_start_point_case]
  split_ifs <;> rfl

theorem get_argument_start_point_loop_nil (self : OscMessage) (n p : Nat) :
    OscMessage.get_argument_start_point_loop self [] (n + 1) p = .error .OutOfRange := by
  rw [OscMessage.get_argument_start_point_loop]

theorem scanTo_ge (c : Nat) (err : OscError) (l : List Nat) (i j : Nat)
    (h : scanTo c err l i = .ok j) : i ≤ j := by
  induction l generalizing i with
  | nil => simp [scanTo] at h
  | cons b l ih =>
    rw [scanTo] at h
    split_ifs at h with hb
    · cases h; exact Nat.le_refl _
    · have := ih (i + 1) h; omega

theorem alignLoop_ge (i : Nat) : i ≤ alignLoop i := by
  unfold alignLoop alignStep; split_ifs <;> omega

theorem get_string_length_gt (self : OscMessage) (p q : Nat)
    (h : self.get_string_length p = .ok q) : p < q := by
  rw [OscMessage.get_string_length] at h
  cases hs : scanTo 0 .OutOfRange (self.m_data.drop p) p with
  | error e => rw [hs] at h; cases h
  | ok j =>
    rw [hs] at h
    have h1 := scanTo_ge _ _ _ _ _ hs
    have h2 := alignLoop_ge (j + 1)
    cases h
    omega

theorem get_argument_start_point_case_ge (self : OscMessage) (t p q : Nat)
    (h : get_argument_start_point_case self t p = .ok q) :
    p ≤ q ∧ ((t = 105 ∨ t = 102 ∨ t = 115 ∨ t = 100) → p < q) := by
  rw [get_argument_start_point_case] at h
  split_ifs at h with h1 h2 h3 h4
  · cases h; exact ⟨by omega, fun _ => by omega⟩
  · cases h; exact ⟨by omega, fun _ => by omega⟩
  · have := get_string_length_gt self p q h
    exact ⟨by omega, fun _ => this⟩
  · cases h; exact ⟨by omega, fun _ => by omega⟩
  · cases h
    exact ⟨Nat.le_refl _, fun hc => by rcases hc with hc | hc | hc | hc <;> contradiction⟩

theorem get_argument_start_point_loop_mono (self : OscMessage) (ts : List Nat)
    (n p a b : Nat)
    (ha : OscMessage.get_argument_start_point_loop self ts n p = .ok a)
    (hb : OscMessage.get_argument_start_point_loop self ts (n + 1) p = .ok b) :
    a ≤ b ∧ ∀ t, ts[n]? = some t → (t = 105 ∨ t = 102 ∨ t = 115 ∨ t = 100) → a < b := by
  induction n generalizing ts p with
  | zero =>
    rw [get_argument_start_point_loop_zero] at ha
    have hpa : p = a := Except.ok.inj ha
    subst hpa
    cases ts with
    | nil => rw [get_argument_start_point_loop_nil] at hb; cases hb
    | cons t ts =>
      rw [get_argument_start_point_loop_cons] at hb
      cases hc : get_argument_start_point_case self t p with
      | error e => rw [hc] at hb; cases hb
      | ok q =>
        rw [hc] at hb
        simp only [get_argument_start_point_loop_zero] at hb
        have hqb : q = b := Except.ok.inj hb
        subst hqb
        have := get_argument_start_point_case_ge self t p q hc
        refine ⟨this.1, fun u hu hcase => ?_⟩
        simp only [List.getElem?_cons_zero, Option.some.injEq] at hu
        subst hu
        exact this.2 hcase
  | succ n ih =>
    cases ts with
    | nil => rw [get_argument_start_point_loop_nil] at ha; cases ha
    | cons t ts =>
      rw [get_argument_start_point_loop_cons] at ha hb
      cases hc : get_argument_start_point_case self t p with
      | error e => rw [hc] at ha; cases ha
      | ok q =>
        rw [hc] at ha hb
        simp only at ha hb
        have := ih ts q ha hb
        refine ⟨this.1, fun u hu hcase => this.2 u ?_ hcase⟩
        simpa using hu

/-- C14 (as amended): for every message and every `n` for which
`get_argument_start_point(n)` and `get_argument_start_point(n+1)` both return,
the first offset is at most the second, and it is strictly smaller when the
type tag at position `n` is `i` (105), `f` (102), `s` (115) or `d` (100). -/
theorem argument_offsets_nondecreasing (self : OscMessage) (n a b : Nat)
    (ha : self.get_argument_start_point n = .ok a)
    (hb : self.get_argument_start_point (n + 1) = .ok b) :
    a ≤ b ∧
      ∀ t, self.m_type[n]? = some t → (t = 105 ∨ t = 102 ∨ t = 115 ∨ t = 100) → a < b := by
  rw [OscMessage.get_argument_start_point] at ha hb
  cases hd : self.get_data_start_point with
  | error e => rw [hd] at ha; cases ha
  | ok p =>
    rw [hd] at ha hb
    exact get_argument_start_point_loop_mono self self.m_type n p a b ha hb

theorem argument_offsets_nondecreasing_witness :
    8 ≤ 12 ∧
      ∀ t, (OscMessage.mk false [47, 97] [84, 105]
          [47, 97, 0, 0, 44, 84, 105, 0, 0, 0, 0, 1]).m_type[1]? = some t →
        (t = 105 ∨ t = 102 ∨ t = 115 ∨ t = 100) → 8 < 12 :=
  argument_offsets_nondecreasing
    (OscMessage.mk false [47, 97] [84, 105] [47, 97, 0, 0, 44, 84, 105, 0, 0, 0, 0, 1])
    1 8 12 rfl rfl

/-- C14, the claim as stated fails: the message decoded from the encoding of
`/a` with `PushBoolean(true)` then `PushInt32(1)` has the two type tags `T`,
`i`, so 0 and 1 are both argument indices in range, and
`get_argument_start_point(0)` and `get_argument_start_point(1)` are both 8:
the first is not smaller than the second. -/
theorem argument_offsets_not_strict :
    encodeDecode [47, 97] [.Boolean true, .Int32 1] =
        .ok (OscMessage.mk false [47, 97] [84, 105]
          [47, 97, 0, 0, 44, 84, 105, 0, 0, 0, 0, 1]) ∧
      (OscMessage.mk false [47, 97] [84, 105]
          [47, 97, 0, 0, 44, 84, 105, 0, 0, 0, 0, 1]).get_argument_start_point 0 = .ok 8 ∧
      (OscMessage.mk false [47, 97] [84, 105]
          [47, 97, 0, 0, 44, 84, 105, 0, 0, 0, 0, 1]).get_argument_start_point 1 = .ok 8 ∧
      ¬ (∀ a b,
        (OscMessage.mk false [47, 97] [84, 105]
          [47, 97, 0, 0, 44, 84, 105, 0, 0, 0, 0, 1]).get_argument_start_point 0 = .ok a →
        (OscMessage.mk false [47, 97] [84, 105]
          [47, 97, 0, 0, 44, 84, 105, 0, 0, 0, 0, 1]).get_argument_start_point 1 = .ok b →
        a < b) := by
  refine ⟨rfl, rfl, rfl, ?_⟩
  intro h
  exact absurd (h 8 8 rfl rfl) (by decide)

theorem Push_walkable (self : OscMessage) (op : PushOp) (h : self.m_readonly = false)
    (hop : op.Walkable) :
    ∃ bytes tag, (self.Push op).1 =
        { self with m_data := self.m_data ++ bytes, m_type := self.m_type ++ [tag] } ∧
      tag ≠ 0 ∧ bytes.length = argumentBytes op ∧ bytes.length % 4 = 0 ∧
      ∀ (dec : OscMessage) (pre rest : List Nat), dec.m_data = pre ++ (bytes ++ rest) →
        pre.length % 4 = 0 →
        get_argument_start_point_case dec tag pre.length = .ok (pre.length + bytes.length) := by
  obtain ⟨ro, a, t, d⟩ := self
  simp only at h
  subst h
  cases op with
  | Int32 v =>
    exact ⟨_, 105, rfl, by decide, by simp [objectBytes_length, argumentBytes],
      by simp [objectBytes_length], fun dec pre rest _ _ => by
        simp [get_argument_start_point_case, objectBytes_length]⟩
  | Float32 x =>
    by_cases hx : isinf32 x = true
    · exact ⟨[], 73, by simp [OscMessage.Push, OscMessage.PushFloat32, HEKKYOSC_ASSERT, hx],
        by decide, by simp [argumentBytes, hx], rfl, fun dec pre rest _ _ => by
          simp [get_argument_start_point_case]⟩
    · exact ⟨objectBytes 4 (if utils.IsLittleEndian = true then utils.SwapFloat32 x else x), 102,
        by simp [OscMessage.Push, OscMessage.PushFloat32, HEKKYOSC_ASSERT, hx],
        by decide, by simp [argumentBytes, hx, objectBytes_length],
        by simp [objectBytes_length], fun dec pre rest _ _ => by
          simp [get_argument_start_point_case, objectBytes_length]⟩
  | Float64 x =>
    by_cases hx : isinf64 x = true
    · exact ⟨[], 73, by simp [OscMessage.Push, OscMessage.PushFloat64, HEKKYOSC_ASSERT, hx],
        by decide, by simp [argumentBytes, hx], rfl, fun dec pre rest _ _ => by
          simp [get_argument_start_point_case]⟩
    · exact ⟨objectBytes 8 (if utils.IsLittleEndian = true then utils.SwapFloat64 x else x), 100,
        by simp [OscMessage.Push, OscMessage.PushFloat64, HEKKYOSC_ASSERT, hx],
        by decide, by simp [argumentBytes, hx, objectBytes_length],
        by simp [objectBytes_length], fun dec pre rest _ _ => by
          simp [get_argument_start_point_case, objectBytes_length]⟩
  | Boolean b =>
    cases b
    · exact ⟨[], 70, by simp [OscMessage.Push, OscMessage.PushBoolean, HEKKYOSC_ASSERT],
        by decide, rfl, rfl, fun dec pre rest _ _ => by simp [get_argument_start_point_case]⟩
    · exact ⟨[], 84, by simp [OscMessage.Push, OscMessage.PushBoolean, HEKKYOSC_ASSERT],
        by decide, rfl, rfl, fun dec pre rest _ _ => by simp [get_argument_start_point_case]⟩
  | String s =>
    have hs : 0 ∉ s := hop
    refine ⟨stringSegment s, 115,
      by simp [OscMessage.Push, OscMessage.PushString, HEKKYOSC_ASSERT, stringSegment],
      by decide, by simp [argumentBytes, stringSegment_length], ?_, ?_⟩
    · rw [stringSegment_length]; exact aligned_mod _
    · intro dec pre rest hdata hpre
      have := get_string_length_segment dec pre s rest hdata hpre hs
      simpa [get_argument_start_point_case] using this
  | Blob d n => exact absurd hop (by simp [PushOp.Walkable])
  | Int64 v => exact absurd hop (by simp [PushOp.Walkable])
  | StringRef s => exact absurd hop (by simp [PushOp.Walkable])
  | CStyleStringRef s => exact absurd hop (by simp [PushOp.Walkable])
  | CStyleString s => exact absurd hop (by simp [PushOp.Walkable])
  | WString s => exact absurd hop (by simp [PushOp.Walkable])
  | WStringRef s => exact absurd hop (by simp [PushOp.Walkable])
  | CStyleWStringRef s => exact absurd hop (by simp [PushOp.Walkable])
  | CStyleWString s => exact absurd hop (by simp [PushOp.Walkable])

theorem PushAll_walkable (ops : List PushOp) (self : OscMessage)
    (h : self.m_readonly = false) (hops : ∀ op ∈ ops, op.Walkable) :
    ∃ payload tags, self.PushAll ops =
        { self with m_data := self.m_data ++ payload, m_type := self.m_type ++ tags } ∧
      tags.length = ops.length ∧ 0 ∉ tags ∧
      payload.length = (ops.map argumentBytes).sum ∧
      ∀ (dec : OscMessage) (pre post ts : List Nat) (k : Nat), k ≤ ops.length →
        dec.m_data = pre ++ (payload ++ post) → pre.length % 4 = 0 →
        OscMessage.get_argument_start_point_loop dec (tags ++ ts) k pre.length =
          .ok (pre.length + ((ops.take k).map argumentBytes).sum) := by
  induction ops generalizing self with
  | nil =>
    refine ⟨[], [], by simp [OscMessage.PushAll], rfl, by simp, rfl, ?_⟩
    intro dec pre post ts k hk _ _
    have hk0 : k = 0 := by simpa using hk
    subst hk0
    rw [get_argument_start_point_loop_zero]
    rfl
  | cons op ops ih =>
    obtain ⟨bytes, tag, hpush, htag, hlen, hmod, hstep⟩ :=
      Push_walkable self op h (hops op (List.mem_cons_self _ _))
    have h1 : (self.Push op).1.m_readonly = false := by rw [hpush]; exact h
    obtain ⟨payload, tags, hall, htl, htags, hpl, hwalk⟩ :=
      ih (self.Push op).1 h1 (fun o ho => hops o (List.mem_cons_of_mem _ ho))
    refine ⟨bytes ++ payload, tag :: tags, ?_, by simp [htl], ?_, ?_, ?_⟩
    · rw [OscMessage.PushAll, hall, hpush]
      simp
    · simp only [List.mem_cons, not_or]
      exact ⟨fun e => htag e.symm, htags⟩
    · simp [hpl, hlen]
    · intro dec pre post ts k hk hdata hpre
      cases k with
      | zero =>
        rw [get_argument_start_point_loop_zero]
        rfl
      | succ k =>
        have hdata1 : dec.m_data = pre ++ (bytes ++ (payload ++ post)) := by
          rw [hdata, List.append_assoc]
        have hdata2 : dec.m_data = (pre ++ bytes) ++ (payload ++ post) := by
          rw [hdata1, List.append_assoc]
        have hlen2 : (pre ++ bytes).length = pre.length + bytes.length :=
          List.length_append _ _
        have hrec := hwalk dec (pre ++ bytes) post ts k (by simpa using hk) hdata2
          (by rw [hlen2]; omega)
        rw [List.cons_append, get_argument_start_point_loop_cons,
          hstep dec pre (payload ++ post) hdata1 hpre]
        simp only
        rw [← hlen2]
        refine Eq.trans hrec ?_
        simp only [List.take_succ_cons, List.map_cons, List.sum_cons, hlen2, hlen]
        exact congrArg Except.ok (by omega)

theorem index_append (dec : OscMessage) (pre l : List Nat) (i : Nat)
    (h : dec.m_data = pre ++ l) :
    dec.index (pre.length + i) =
      match l[i]? with
      | some b => .ok b
      | none => .error .OutOfBounds := by
  rw [OscMessage.index, h, List.getElem?_append_right (Nat.le_add_right _ _)]
  simp

theorem encodeDecode_walkable (address : List Nat) (ops : List PushOp)
    (hlen : address.length > 1) (hslash : address.head? = some 47) (hnul : 0 ∉ address)
    (hcomma : 44 ∉ address) (hops : ∀ op ∈ ops, op.Walkable) :
    ∃ pre tags,
      pre.length = utils.GetAlignedStringLength address.length
        + utils.GetAlignedStringLength (1 + ops.length) ∧
      pre.length = ((OscMessage.mk false address [44] []).PushAll ops).addressSegment.length
        + ((OscMessage.mk false address [44] []).PushAll ops).typeSegment.length ∧
      encodeDecode address ops = .ok (OscMessage.mk false address tags
        (pre ++ ((OscMessage.mk false address [44] []).PushAll ops).m_data)) ∧
      ∀ n, n ≤ ops.length →
        (OscMessage.mk false address tags
          (pre ++ ((OscMessage.mk false address [44] []).PushAll ops).m_data)
        ).get_argument_start_point n =
          .ok (pre.length + ((ops.take n).map argumentBytes).sum) := by
  obtain ⟨payload, tags, hall, htl, htags, -, hwalk⟩ :=
    PushAll_walkable ops (OscMessage.mk false address [44] []) rfl hops
  simp only [List.nil_append, List.singleton_append] at hall
  have hA : ((OscMessage.mk false address [44] []).PushAll ops).m_address = address := by
    rw [hall]
  have hT : ((OscMessage.mk false address [44] []).PushAll ops).m_type = 44 :: tags := by
    rw [hall]
  have hD : ((OscMessage.mk false address [44] []).PushAll ops).m_data = payload := by
    rw [hall]
  obtain ⟨pa, pt, hshape, hpa, hpt, -⟩ :=
    GetBytes_shape ((OscMessage.mk false address [44] []).PushAll ops)
  obtain ⟨t, ht, hdec⟩ := OscMessage_buffer_GetBytes
    ((OscMessage.mk false address [44] []).PushAll ops)
    (by rw [hA]; exact hlen) (by rw [hA]; exact hslash) (by rw [hA]; exact hnul)
  have ht2 := get_type_list_GetBytes ((OscMessage.mk false address [44] []).PushAll ops) tags
    (by rw [hA]; exact hcomma) hT htags
  rw [ht2] at ht
  cases ht
  rw [hA, hT] at hshape
  rw [hA] at hpa hdec
  rw [hT] at hpt
  have hshape2 : ((OscMessage.mk false address [44] []).PushAll ops).GetBytes.2.1 =
      (address ++ 0 :: (List.replicate pa 0 ++ ((44 :: tags) ++ 0 :: List.replicate pt 0)))
        ++ ((OscMessage.mk false address [44] []).PushAll ops).m_data := by
    rw [hshape]; simp
  have hprelen : (address ++ 0 :: (List.replicate pa 0 ++
        ((44 :: tags) ++ 0 :: List.replicate pt 0))).length =
      utils.GetAlignedStringLength address.length +
        utils.GetAlignedStringLength (44 :: tags).length := by
    simp only [List.length_append, List.length_cons, List.length_replicate] at hpt ⊢
    omega
  have htl2 : (44 :: tags).length = 1 + ops.length := by
    simp only [List.length_cons, htl]; omega
  have hpre4 : (address ++ 0 :: (List.replicate pa 0 ++
        ((44 :: tags) ++ 0 :: List.replicate pt 0))).length % 4 = 0 := by
    have h1 := aligned_mod address.length
    have h2 := aligned_mod (44 :: tags).length
    rw [hprelen]; omega
  refine ⟨_, tags, by rw [hprelen, htl2], ?_, ?_, ?_⟩
  · rw [hprelen]
    have h1 := aligned_gt address.length
    have h2 := aligned_gt (44 :: tags).length
    simp only [OscMessage.addressSegment, OscMessage.typeSegment, hA, hT, List.length_append,
      List.length_replicate]
    omega
  · simp only [encodeDecode, encode_eq address ops hlen hslash]
    rw [← hshape2]
    exact hdec
  · intro n hn
    have hdata : (OscMessage.mk false address tags
        ((address ++ 0 :: (List.replicate pa 0 ++ ((44 :: tags) ++ 0 :: List.replicate pt 0)))
          ++ ((OscMessage.mk false address [44] []).PushAll ops).m_data)).m_data =
        address ++ 0 :: (List.replicate pa 0 ++ ((44 :: tags) ++ 0 ::
          (List.replicate pt 0 ++ payload))) := by
      rw [hD]; simp
    have hstart := get_data_start_point_encoded _ address tags payload pa pt hdata hcomma
      htags hpa
    have hdata2 : (OscMessage.mk false address tags
        ((address ++ 0 :: (List.replicate pa 0 ++ ((44 :: tags) ++ 0 :: List.replicate pt 0)))
          ++ ((OscMessage.mk false address [44] []).PushAll ops).m_data)).m_data =
        (address ++ 0 :: (List.replicate pa 0 ++ ((44 :: tags) ++ 0 :: List.replicate pt 0)))
          ++ (payload ++ []) := by
      rw [hD]; simp
    have hw := hwalk _ _ [] [] n hn hdata2 hpre4
    rw [OscMessage.get_argument_start_point, hstart]
    simp only
    rw [← hprelen]
    simpa using hw

/-- C20: for every valid address without `,` or NUL and every sequence of
pushes drawn from int32, float32 and float64 (infinite or not), boolean and
NUL-free `PushString`, on the message constructed from the `GetBytes` output
`get_argument_start_point(n)` is, for every `n` up to the number of pushes,
the header length (aligned address length plus aligned type-tag length, the
lengths of the two header segments `GetBytes` wrote) plus the number of payload
bytes of the first `n` pushes (4, 4, 8, the padded string length, 0 for a
boolean or an infinite float), which is the length of the payload those `n`
pushes built. -/
theorem offset_walk_agrees (address : List Nat) (ops : List PushOp) (n : Nat)
    (hlen : address.length > 1) (hslash : address.head? = some 47) (hnul : 0 ∉ address)
    (hcomma : 44 ∉ address) (hops : ∀ op ∈ ops, op.Walkable) (hn : n ≤ ops.length) :
    ∃ dec, encodeDecode address ops = .ok dec ∧
      dec.get_argument_start_point n =
        .ok (utils.GetAlignedStringLength address.length
          + utils.GetAlignedStringLength (1 + ops.length)
          + ((ops.take n).map argumentBytes).sum) ∧
      utils.GetAlignedStringLength address.length
          + utils.GetAlignedStringLength (1 + ops.length) =
        ((OscMessage.mk false address [44] []).PushAll ops).addressSegment.length
          + ((OscMessage.mk false address [44] []).PushAll ops).typeSegment.length ∧
      ((ops.take n).map argumentBytes).sum =
        ((OscMessage.mk false address [44] []).PushAll (ops.take n)).m_data.length := by
  obtain ⟨pre, tags, hpre, hseg, hdec, hwalk⟩ :=
    encodeDecode_walkable address ops hlen hslash hnul hcomma hops
  obtain ⟨payload, tags2, hall, -, -, hpl, -⟩ :=
    PushAll_walkable (ops.take n) (OscMessage.mk false address [44] []) rfl
      (fun o ho => hops o (List.mem_of_mem_take ho))
  refine ⟨_, hdec, ?_, ?_, ?_⟩
  · rw [hwalk n hn, hpre]
  · rw [← hpre, hseg]
  · rw [hall]
    simp [hpl]

theorem offset_walk_agrees_witness :
    ∃ dec, encodeDecode [47, 97]
          [.Int32 5, .String [104, 105], .Boolean true, .Float32 0x7F800000, .Float64 0]
        = .ok dec ∧
      dec.get_argument_start_point 3 =
        .ok (utils.GetAlignedStringLength [47, 97].length
          + utils.GetAlignedStringLength
            (1 + [PushOp.Int32 5, .String [104, 105], .Boolean true, .Float32 0x7F800000,
              .Float64 0].length)
          + (([PushOp.Int32 5, .String [104, 105], .Boolean true, .Float32 0x7F800000,
              .Float64 0].take 3).map argumentBytes).sum) ∧
      utils.GetAlignedStringLength [47, 97].length
          + utils.GetAlignedStringLength
            (1 + [PushOp.Int32 5, .String [104, 105], .Boolean true, .Float32 0x7F800000,
              .Float64 0].length) =
        ((OscMessage.mk false [47, 97] [44] []).PushAll
            [.Int32 5, .String [104, 105], .Boolean true, .Float32 0x7F800000, .Float64 0]
          ).addressSegment.length
          + ((OscMessage.mk false [47, 97] [44] []).PushAll
            [.Int32 5, .String [104, 105], .Boolean true, .Float32 0x7F800000, .Float64 0]
          ).typeSegment.length ∧
      (([PushOp.Int32 5, .String [104, 105], .Boolean true, .Float32 0x7F800000,
          .Float64 0].take 3).map argumentBytes).sum =
        ((OscMessage.mk false [47, 97] [44] []).PushAll
          ([PushOp.Int32 5, .String [104, 105], .Boolean true, .Float32 0x7F800000,
            .Float64 0].take 3)).m_data.length :=
  offset_walk_agrees [47, 97]
    [.Int32 5, .String [104, 105], .Boolean true, .Float32 0x7F800000, .Float64 0] 3
    (by decide) rfl (by decide) (by decide) (by simp [PushOp.Walkable]) (by decide)

/-! ## Float round trip -/

theorem ofBytesLE_bytesLE (n x : Nat) : ofBytesLE (bytesLE n x) = x % 256 ^ n := by
  induction n generalizing x with
  | zero => simp [bytesLE, ofBytesLE, Nat.mod_one]
  | succ n ih =>
    rw [bytesLE, ofBytesLE, ih, Nat.pow_succ, Nat.mul_comm (256 ^ n) 256, Nat.mod_mul]

theorem payload_floats (address : List Nat) (w x : Nat)
    (hw : ¬ isinf32 w = true) (hx : ¬ isinf64 x = true) :
    ((OscMessage.mk false address [44] []).PushAll [.Float32 w, .Float64 x]).m_data =
      (bytesLE 4 w).reverse ++ (bytesLE 8 x).reverse := by
  simp [OscMessage.PushAll, OscMessage.Push, OscMessage.PushFloat32, OscMessage.PushFloat64,
    HEKKYOSC_ASSERT, hw, hx, objectBytes, utils.IsLittleEndian, utils.SwapFloat32,
    utils.SwapFloat64, bytesLE_reverse]

theorem ofObjectBytes_bytes32 (w : Nat) (hw : w < 2 ^ 32) :
    ofObjectBytes [w % 256, w / 256 % 256, w / 256 / 256 % 256, w / 256 / 256 / 256 % 256]
      = w := by
  have h := ofBytesLE_bytesLE 4 w
  rw [Nat.mod_eq_of_lt (by norm_num at hw ⊢; exact hw)] at h
  simpa [bytesLE, ofObjectBytes, utils.IsLittleEndian] using h

theorem ofObjectBytes_bytes64 (x : Nat) (hx : x < 2 ^ 64) :
    ofObjectBytes [x % 256, x / 256 % 256, x / 256 / 256 % 256, x / 256 / 256 / 256 % 256,
      x / 256 / 256 / 256 / 256 % 256, x / 256 / 256 / 256 / 256 / 256 % 256,
      x / 256 / 256 / 256 / 256 / 256 / 256 % 256,
      x / 256 / 256 / 256 / 256 / 256 / 256 / 256 % 256] = x := by
  have h := ofBytesLE_bytesLE 8 x
  rw [Nat.mod_eq_of_lt (by norm_num at hx ⊢; exact hx)] at h
  simpa [bytesLE, ofObjectBytes, utils.IsLittleEndian] using h

/-- C13: for every valid address without `,` or NUL, every 32-bit pattern `w`
that is not an infinity and every 64-bit pattern `x` that is not an infinity,
encoding `PushFloat32(w)` then `PushFloat64(x)`, serialising with `GetBytes`
and constructing a message from those bytes succeeds, and on it `get_float(0)`
has the bit pattern `w` and `get_double(1)` the bit pattern `x`. -/
theorem float_roundtrip (address : List Nat) (w x : Nat)
    (hlen : address.length > 1) (hslash : address.head? = some 47) (hnul : 0 ∉ address)
    (hcomma : 44 ∉ address) (hw : w < 2 ^ 32) (hx : x < 2 ^ 64)
    (hwinf : ¬ (w = 0x7F800000 ∨ w = 0xFF800000))
    (hxinf : ¬ (x = 0x7FF0000000000000 ∨ x = 0xFFF0000000000000)) :
    ∃ dec, encodeDecode address [.Float32 w, .Float64 x] = .ok dec ∧
      dec.get_float 0 = .ok w ∧ dec.get_double 1 = .ok x := by
  have hwi : ¬ isinf32 w = true := fun h => hwinf ((isinf32_iff w hw).mp h)
  have hxi : ¬ isinf64 x = true := fun h => hxinf ((isinf64_iff x hx).mp h)
  obtain ⟨pre, tags, -, -, hdec, hwalk⟩ :=
    encodeDecode_walkable address [.Float32 w, .Float64 x] hlen hslash hnul hcomma
      (by simp [PushOp.Walkable])
  rw [payload_floats address w x hwi hxi] at hdec hwalk
  obtain ⟨dec, hdef⟩ : ∃ dec : OscMessage, dec = OscMessage.mk false address tags
      (pre ++ ((bytesLE 4 w).reverse ++ (bytesLE 8 x).reverse)) := ⟨_, rfl⟩
  rw [← hdef] at hdec hwalk
  have hdata : dec.m_data = pre ++ ((bytesLE 4 w).reverse ++ (bytesLE 8 x).reverse) := by
    rw [hdef]
  have hg0 := hwalk 0 (by simp)
  have hg1 := hwalk 1 (by simp)
  simp only [List.take_zero, List.map_nil, List.sum_nil, Nat.add_zero] at hg0
  simp [argumentBytes, hwi] at hg1
  have hidx := fun i => index_append dec pre
    ((bytesLE 4 w).reverse ++ (bytesLE 8 x).reverse) i hdata
  have i0 := hidx 0
  have i1 := hidx 1
  have i2 := hidx 2
  have i3 := hidx 3
  have i4 := hidx 4
  have i5 := hidx 5
  have i6 := hidx 6
  have i7 := hidx 7
  have i8 := hidx 8
  have i9 := hidx 9
  have i10 := hidx 10
  have i11 := hidx 11
  simp [bytesLE] at i0 i1 i2 i3 i4 i5 i6 i7 i8 i9 i10 i11
  refine ⟨dec, hdec, ?_, ?_⟩
  · rw [OscMessage.get_float, hg0]
    simp only [i0, i1, i2, i3]
    exact congrArg Except.ok (ofObjectBytes_bytes32 w hw)
  · rw [OscMessage.get_double, hg1]
    simp only [Nat.add_assoc, Nat.reduceAdd, i4, i5, i6, i7, i8, i9, i10, i11]
    exact congrArg Except.ok (ofObjectBytes_bytes64 x hx)

theorem float_roundtrip_witness :
    ∃ dec, encodeDecode [47, 97] [.Float32 0x3FC00000, .Float64 0xC000000000000001]
        = .ok dec ∧
      dec.get_float 0 = .ok 0x3FC00000 ∧ dec.get_double 1 = .ok 0xC000000000000001 :=
  float_roundtrip [47, 97] 0x3FC00000 0xC000000000000001 (by decide) rfl (by decide)
    (by decide) (by decide) (by decide) (by decide) (by decide)

/-! ## Int64 arguments in the offset walk -/

/-- C21: evaluation at the failing input.  On the address `/a`, after
`PushInt64(1)` then `PushInt32(2)`, `GetBytes` returns 20 bytes with the eight
bytes of the int64 at offsets 8 to 15 and the four bytes of the int32 at
offsets 16 to 19.  On the message constructed from those bytes, whose type tag
at position 0 is `h` (104), `get_argument_start_point(0)` and
`get_argument_start_point(1)` are both 8: the walk has no case for `h` and does
not advance by 8, so argument 1 is resolved inside the int64 and not at 16. -/
theorem int64_does_not_advance_walk :
    encodeDecode [47, 97] [.Int64 1, .Int32 2] =
        .ok (OscMessage.mk false [47, 97] [104, 105]
          [47, 97, 0, 0, 44, 104, 105, 0, 0, 0, 0, 0, 0, 0, 0, 1, 0, 0, 0, 2]) ∧
      (OscMessage.mk false [47, 97] [104, 105]
          [47, 97, 0, 0, 44, 104, 105, 0, 0, 0, 0, 0, 0, 0, 0, 1, 0, 0, 0, 2]
        ).get_argument_start_point 0 = .ok 8 ∧
      (OscMessage.mk false [47, 97] [104, 105]
          [47, 97, 0, 0, 44, 104, 105, 0, 0, 0, 0, 0, 0, 0, 0, 1, 0, 0, 0, 2]
        ).get_argument_start_point 1 = .ok 8 ∧
      ([47, 97, 0, 0, 44, 104, 105, 0, 0, 0, 0, 0, 0, 0, 0, 1, 0, 0, 0, 2] : List Nat).drop 16
        = [0, 0, 0, 2] ∧
      (OscMessage.mk false [47, 97] [104, 105]
          [47, 97, 0, 0, 44, 104, 105, 0, 0, 0, 0, 0, 0, 0, 0, 1, 0, 0, 0, 2]
        ).get_int 1 = .ok 0 := by
  refine ⟨rfl, rfl, rfl, rfl, rfl⟩

/-! ## Alignment and order of the argument offsets -/

theorem get_data_start_point_mod (self : OscMessage) (p : Nat)
    (h : self.get_data_start_point = .ok p) : p % 4 = 0 := by
  rw [OscMessage.get_data_start_point] at h
  cases h1 : scanTo 44 .OutOfBounds self.m_data 0 with
  | error e => rw [h1] at h; cases h
  | ok i =>
    rw [h1] at h
    simp only at h
    cases h2 : scanTo 0 .OutOfBounds (self.m_data.drop i) i with
    | error e => rw [h2] at h; cases h
    | ok j =>
      rw [h2] at h
      have hp : alignLoop (j + 1) = p := Except.ok.inj h
      rw [← hp]
      exact alignLoop_mod _

theorem get_string_length_mod (self : OscMessage) (p q : Nat)
    (h : self.get_string_length p = .ok q) : q % 4 = 0 := by
  rw [OscMessage.get_string_length] at h
  cases hs : scanTo 0 .OutOfRange (self.m_data.drop p) p with
  | error e => rw [hs] at h; cases h
  | ok j =>
    rw [hs] at h
    have hq : alignLoop (j + 1) = q := Except.ok.inj h
    rw [← hq]
    exact alignLoop_mod _

theorem get_argument_start_point_case_mod (self : OscMessage) (t p q : Nat)
    (h : get_argument_start_point_case self t p = .ok q) (hp : p % 4 = 0) : q % 4 = 0 := by
  rw [get_argument_start_point_case] at h
  split_ifs at h
  · have := Except.ok.inj h; omega
  · have := Except.ok.inj h; omega
  · exact get_string_length_mod self p q h
  · have := Except.ok.inj h; omega
  · have := Except.ok.inj h; omega

theorem get_argument_start_point_loop_bounds (self : OscMessage) (ts : List Nat)
    (n p a : Nat) (h : OscMessage.get_argument_start_point_loop self ts n p = .ok a) :
    p ≤ a ∧ (p % 4 = 0 → a % 4 = 0) := by
  induction n generalizing ts p with
  | zero =>
    rw [get_argument_start_point_loop_zero] at h
    have hpa : p = a := Except.ok.inj h
    subst hpa
    exact ⟨Nat.le_refl _, fun hp => hp⟩
  | succ n ih =>
    cases ts with
    | nil => rw [get_argument_start_point_loop_nil] at h; cases h
    | cons t ts =>
      rw [get_argument_start_point_loop_cons] at h
      cases hc : get_argument_start_point_case self t p with
      | error e => rw [hc] at h; cases h
      | ok q =>
        rw [hc] at h
        simp only at h
        have h1 := ih ts q h
        have h2 := (get_argument_start_point_case_ge self t p q hc).1
        have h3 := get_argument_start_point_case_mod self t p q hc
        exact ⟨by omega, fun hp => h1.2 (h3 hp)⟩

theorem get_argument_start_point_loop_prefix (self : OscMessage) (ts : List Nat)
    (n p b : Nat) (h : OscMessage.get_argument_start_point_loop self ts (n + 1) p = .ok b) :
    ∃ a, OscMessage.get_argument_start_point_loop self ts n p = .ok a := by
  induction n generalizing ts p with
  | zero => exact ⟨p, get_argument_start_point_loop_zero self ts p⟩
  | succ n ih =>
    cases ts with
    | nil => rw [get_argument_start_point_loop_nil] at h; cases h
    | cons t ts =>
      rw [get_argument_start_point_loop_cons] at h
      rw [get_argument_start_point_loop_cons]
      cases hc : get_argument_start_point_case self t p with
      | error e => rw [hc] at h; cases h
      | ok q =>
        rw [hc] at h
        exact ih ts q h

/-- C24: for every message (stored buffer and type-tag list) and every `n` for
which `get_argument_start_point(n+1)` returns, `get_data_start_point()` and
`get_argument_start_point(n)` return too, both argument offsets are multiples
of 4, the data start point is at most `get_argument_start_point(n)`, and
`get_argument_start_point(n)` is at most `get_argument_start_point(n+1)`. -/
theorem argument_offsets_aligned (self : OscMessage) (n b : Nat)
    (hb : self.get_argument_start_point (n + 1) = .ok b) :
    ∃ p a, self.get_data_start_point = .ok p ∧ self.get_argument_start_point n = .ok a ∧
      a % 4 = 0 ∧ b % 4 = 0 ∧ p ≤ a ∧ a ≤ b := by
  have hb0 := hb
  rw [OscMessage.get_argument_start_point] at hb
  cases hd : self.get_data_start_point with
  | error e => rw [hd] at hb; cases hb
  | ok p =>
    rw [hd] at hb
    simp only at hb
    obtain ⟨a, ha⟩ := get_argument_start_point_loop_prefix self self.m_type n p b hb
    have hp4 := get_data_start_point_mod self p hd
    have h1 := get_argument_start_point_loop_bounds self self.m_type n p a ha
    have h2 := get_argument_start_point_loop_bounds self self.m_type (n + 1) p b hb
    have h3 := get_argument_start_point_loop_mono self self.m_type n p a b ha hb
    refine ⟨p, a, rfl, ?_, h1.2 hp4, h2.2 hp4, h1.1, h3.1⟩
    rw [OscMessage.get_argument_start_point, hd]
    exact ha

theorem argument_offsets_aligned_witness :
    ∃ p a,
      (OscMessage.mk false [47, 102, 111, 111] [105, 115, 84]
          [47, 102, 111, 111, 0, 0, 0, 0, 44, 105, 115, 84, 0, 0, 0, 0,
            0, 0, 0, 42, 104, 105, 0, 0]).get_data_start_point = .ok p ∧
      (OscMessage.mk false [47, 102, 111, 111] [105, 115, 84]
          [47, 102, 111, 111, 0, 0, 0, 0, 44, 105, 115, 84, 0, 0, 0, 0,
            0, 0, 0, 42, 104, 105, 0, 0]).get_argument_start_point 1 = .ok a ∧
      a % 4 = 0 ∧ 24 % 4 = 0 ∧ p ≤ a ∧ a ≤ 24 :=
  argument_offsets_aligned
    (OscMessage.mk false [47, 102, 111, 111] [105, 115, 84]
      [47, 102, 111, 111, 0, 0, 0, 0, 44, 105, 115, 84, 0, 0, 0, 0,
        0, 0, 0, 42, 104, 105, 0, 0]) 1 24 rfl

/-! ## The data start point of a decoded message -/

/-- Where the data start point is right: for every valid address (length above
1, first character `/`) that holds no NUL and no `,`, and every sequence of
pushes, on the message constructed from the `GetBytes` output
`get_data_start_point()` is the aligned address length plus the aligned
type-tag length, which is the length of the header `GetBytes` wrote and the
index at which the payload starts in the stored bytes. -/
theorem get_data_start_point_roundtrip (address : List Nat) (ops : List PushOp)
    (hlen : address.length > 1) (hslash : address.head? = some 47) (hnul : 0 ∉ address)
    (hcomma : 44 ∉ address) :
    ∃ dec, encodeDecode address ops = .ok dec ∧
      dec.get_data_start_point =
        .ok (utils.GetAlignedStringLength address.length
          + utils.GetAlignedStringLength
              ((OscMessage.mk false address [44] []).PushAll ops).m_type.length) ∧
      utils.GetAlignedStringLength address.length
          + utils.GetAlignedStringLength
              ((OscMessage.mk false address [44] []).PushAll ops).m_type.length =
        ((OscMessage.mk false address [44] []).PushAll ops).addressSegment.length
          + ((OscMessage.mk false address [44] []).PushAll ops).typeSegment.length ∧
      dec.m_data.drop (utils.GetAlignedStringLength address.length
          + utils.GetAlignedStringLength
              ((OscMessage.mk false address [44] []).PushAll ops).m_type.length) =
        ((OscMessage.mk false address [44] []).PushAll ops).m_data := by
  obtain ⟨-, hA, tags, hT, htags⟩ :=
    PushAll_inv (OscMessage.mk false address [44] []) ops rfl
  simp only at hA
  simp only [List.singleton_append] at hT
  obtain ⟨pa, pt, hshape, hpa, hpt, -⟩ :=
    GetBytes_shape ((OscMessage.mk false address [44] []).PushAll ops)
  obtain ⟨t, ht, hdec⟩ := OscMessage_buffer_GetBytes
    ((OscMessage.mk false address [44] []).PushAll ops)
    (by rw [hA]; exact hlen) (by rw [hA]; exact hslash) (by rw [hA]; exact hnul)
  have ht2 := get_type_list_GetBytes ((OscMessage.mk false address [44] []).PushAll ops) tags
    (by rw [hA]; exact hcomma) hT htags
  rw [ht2] at ht
  cases ht
  rw [hA, hT] at hshape
  rw [hA] at hpa hdec
  rw [hT] at hpt
  obtain ⟨dec, hdef⟩ : ∃ dec : OscMessage, dec = OscMessage.mk false address tags
      ((OscMessage.mk false address [44] []).PushAll ops).GetBytes.2.1 := ⟨_, rfl⟩
  rw [← hdef] at hdec
  have hdata : dec.m_data = address ++ 0 :: (List.replicate pa 0 ++ ((44 :: tags) ++ 0 ::
      (List.replicate pt 0 ++ ((OscMessage.mk false address [44] []).PushAll ops).m_data))) := by
    rw [hdef]; exact hshape
  have hstart := get_data_start_point_encoded dec address tags _ pa pt hdata hcomma htags hpa
  have hdata2 : dec.m_data =
      (address ++ 0 :: (List.replicate pa 0 ++ ((44 :: tags) ++ 0 :: List.replicate pt 0)))
        ++ ((OscMessage.mk false address [44] []).PushAll ops).m_data := by
    rw [hdata]; simp
  have hprelen : (address ++ 0 :: (List.replicate pa 0 ++
        ((44 :: tags) ++ 0 :: List.replicate pt 0))).length =
      utils.GetAlignedStringLength address.length +
        utils.GetAlignedStringLength (44 :: tags).length := by
    simp only [List.length_append, List.length_cons, List.length_replicate] at hpt ⊢
    omega
  have h1 : encodeDecode address ops = .ok dec := by
    simp only [encodeDecode, encode_eq address ops hlen hslash]
    exact hdec
  refine ⟨dec, h1, ?_, ?_, ?_⟩
  · rw [hT]; exact hstart
  · have h2 := aligned_gt address.length
    have h3 := aligned_gt (44 :: tags).length
    simp only [OscMessage.addressSegment, OscMessage.typeSegment, hA, hT, List.length_append,
      List.length_replicate]
    omega
  · rw [hT, hdata2]
    exact List.drop_left' hprelen

theorem get_data_start_point_roundtrip_witness :
    ∃ dec, encodeDecode [47, 97] [.Int64 1, .Blob [9, 9] 2, .String [104, 105]] = .ok dec ∧
      dec.get_data_start_point =
        .ok (utils.GetAlignedStringLength [47, 97].length
          + utils.GetAlignedStringLength
              ((OscMessage.mk false [47, 97] [44] []).PushAll
                [.Int64 1, .Blob [9, 9] 2, .String [104, 105]]).m_type.length) ∧
      utils.GetAlignedStringLength [47, 97].length
          + utils.GetAlignedStringLength
              ((OscMessage.mk false [47, 97] [44] []).PushAll
                [.Int64 1, .Blob [9, 9] 2, .String [104, 105]]).m_type.length =
        ((OscMessage.mk false [47, 97] [44] []).PushAll
            [.Int64 1, .Blob [9, 9] 2, .String [104, 105]]).addressSegment.length
          + ((OscMessage.mk false [47, 97] [44] []).PushAll
            [.Int64 1, .Blob [9, 9] 2, .String [104, 105]]).typeSegment.length ∧
      dec.m_data.drop (utils.GetAlignedStringLength [47, 97].length
          + utils.GetAlignedStringLength
              ((OscMessage.mk false [47, 97] [44] []).PushAll
                [.Int64 1, .Blob [9, 9] 2, .String [104, 105]]).m_type.length) =
        ((OscMessage.mk false [47, 97] [44] []).PushAll
          [.Int64 1, .Blob [9, 9] 2, .String [104, 105]]).m_data :=
  get_data_start_point_roundtrip [47, 97] [.Int64 1, .Blob [9, 9] 2, .String [104, 105]]
    (by decide) rfl (by decide) (by decide)

/-- C22: evaluation at the failing input.  The address `/a,b` is valid (length
4, first character `/`, no NUL) and the encoder accepts it.  With the single
push `PushInt32(1)` the header `GetBytes` writes is 8 + 4 = 12 bytes long and
the payload `00 00 00 01` starts at index 12.  On the message constructed from
those bytes the address is read back as `/a,b`, but the type list is `b`, taken
from the address bytes, and `get_data_start_point()` is 8 and not 12: its scan
stops at the `,` inside the address, and the NUL it then finds closes the
address, not the type string.  `get_int(0)` therefore reads the type-tag
segment and returns 0 for the encoded 1. -/
theorem get_data_start_point_comma_in_address :
    OscMessage.OscMessage_address [47, 97, 44, 98] =
        .ok (OscMessage.mk false [47, 97, 44, 98] [44] []) ∧
      ((OscMessage.mk false [47, 97, 44, 98] [44] []).PushAll [.Int32 1]).GetBytes.2 =
        ([47, 97, 44, 98, 0, 0, 0, 0, 44, 105, 0, 0, 0, 0, 0, 1], 16) ∧
      ([47, 97, 44, 98, 0, 0, 0, 0, 44, 105, 0, 0, 0, 0, 0, 1] : List Nat).drop 12 =
        ((OscMessage.mk false [47, 97, 44, 98] [44] []).PushAll [.Int32 1]).m_data ∧
      encodeDecode [47, 97, 44, 98] [.Int32 1] =
        .ok (OscMessage.mk false [47, 97, 44, 98] [98]
          [47, 97, 44, 98, 0, 0, 0, 0, 44, 105, 0, 0, 0, 0, 0, 1]) ∧
      (OscMessage.mk false [47, 97, 44, 98] [98]
          [47, 97, 44, 98, 0, 0, 0, 0, 44, 105, 0, 0, 0, 0, 0, 1]).get_data_start_point
        = .ok 8 ∧
      utils.GetAlignedStringLength [47, 97, 44, 98].length
        + utils.GetAlignedStringLength
            ((OscMessage.mk false [47, 97, 44, 98] [44] []).PushAll [.Int32 1]).m_type.length
        = 12 ∧
      ¬ ((OscMessage.mk false [47, 97, 44, 98] [98]
          [47, 97, 44, 98, 0, 0, 0, 0, 44, 105, 0, 0, 0, 0, 0, 1]).get_data_start_point
        = .ok (utils.GetAlignedStringLength [47, 97, 44, 98].length
          + utils.GetAlignedStringLength
              ((OscMessage.mk false [47, 97, 44, 98] [44] []).PushAll
                [.Int32 1]).m_type.length)) ∧
      (OscMessage.mk false [47, 97, 44, 98] [98]
          [47, 97, 44, 98, 0, 0, 0, 0, 44, 105, 0, 0, 0, 0, 0, 1]).get_int 0 = .ok 0 := by
  refine ⟨rfl, rfl, rfl, rfl, rfl, rfl, ?_, rfl⟩
  intro h
  have h2 : (Except.ok 8 : Except OscError Nat) = .ok 12 := h
  simp at h2

/-! ## The value `get_int` returns -/

theorem get_int_step_high (b i : Nat) (hi : i < 3) : OscMessage.get_int_step 0 b i = 0 := by
  have h24 : (2 : Nat) ^ 24 = 16777216 := by norm_num
  have h16 : (2 : Nat) ^ 16 = 65536 := by norm_num
  have h8 : (2 : Nat) ^ 8 = 256 := by norm_num
  have h32 : (2 : Nat) ^ 32 = 4294967296 := by norm_num
  interval_cases i
  · simp only [OscMessage.get_int_step, Nat.zero_or, Nat.shiftLeft_eq, Nat.zero_mul, Nat.sub_zero, h24, h32]
    omega
  · simp only [OscMessage.get_int_step, Nat.zero_or, Nat.shiftLeft_eq, Nat.one_mul, Nat.reduceSub, h16, h32]
    omega
  · simp only [OscMessage.get_int_step, Nat.zero_or, Nat.shiftLeft_eq, Nat.reduceMul, Nat.reduceSub, h8,
      h32]
    omega

theorem get_int_step_low (b : Nat) (hb : b < 256) : OscMessage.get_int_step 0 b 3 = b := by
  have h32 : (2 : Nat) ^ 32 = 4294967296 := by norm_num
  simp only [OscMessage.get_int_step, Nat.zero_or, Nat.shiftLeft_eq, Nat.reduceMul, Nat.reduceSub,
    Nat.pow_zero, Nat.mul_one, OscMessage.promote, h32]
  split_ifs <;> omega

theorem index_eq (self : OscMessage) (i b : Nat) (h : self.m_data[i]? = some b) :
    self.index i = .ok b := by
  rw [OscMessage.index, h]

theorem toBits_mod (v : Int) : toBits 32 v % 256 = (v % 256).toNat := by
  rw [toBits]
  omega

theorem get_int_eq (self : OscMessage) (n p b0 b1 b2 b3 : Nat)
    (hp : self.get_argument_start_point n = .ok p)
    (h0 : self.m_data[p]? = some b0) (h1 : self.m_data[p + 1]? = some b1)
    (h2 : self.m_data[p + 2]? = some b2) (h3 : self.m_data[p + 3]? = some b3)
    (hb3 : b3 < 256) : self.get_int n = .ok b3 := by
  rw [OscMessage.get_int, hp]
  simp only [index_eq self _ _ h0, index_eq self _ _ h1, index_eq self _ _ h2,
    index_eq self _ _ h3]
  rw [get_int_step_high b0 0 (by decide), get_int_step_high b1 1 (by decide),
    get_int_step_high b2 2 (by decide), get_int_step_low b3 hb3]

theorem payload_int32 (address : List Nat) (v : Int) :
    ((OscMessage.mk false address [44] []).PushAll [.Int32 v]).m_data =
      [toBits 32 v / 2 ^ 24 % 256, toBits 32 v / 2 ^ 16 % 256, toBits 32 v / 2 ^ 8 % 256,
        toBits 32 v % 256] := by
  simp [OscMessage.PushAll, OscMessage.Push, OscMessage.PushInt32, HEKKYOSC_ASSERT, objectBytes,
    utils.IsLittleEndian, bytesLE_swap32]

/-- C23: for every message and argument index `n` whose four argument bytes
`b0 b1 b2 b3` lie inside the stored buffer, `get_int(n)` returns `b3`, the last
of them, as an unsigned 8-bit value; hence for an int32 `v` encoded on a valid
address without `,` or NUL the decoded value is `v mod 256`, which equals `v`
exactly when `0 ≤ v ≤ 255`. -/
theorem get_int_low_byte (self : OscMessage) (n p b0 b1 b2 b3 : Nat)
    (address : List Nat) (v : Int)
    (hp : self.get_argument_start_point n = .ok p)
    (h0 : self.m_data[p]? = some b0) (h1 : self.m_data[p + 1]? = some b1)
    (h2 : self.m_data[p + 2]? = some b2) (h3 : self.m_data[p + 3]? = some b3)
    (hb3 : b3 < 256)
    (hlen : address.length > 1) (hslash : address.head? = some 47) (hnul : 0 ∉ address)
    (hcomma : 44 ∉ address) (hv : -2 ^ 31 ≤ v ∧ v < 2 ^ 31) :
    self.get_int n = .ok b3 ∧
      (∃ dec, encodeDecode address [.Int32 v] = .ok dec ∧
        dec.get_int 0 = .ok (v % 256).toNat) ∧
      (((v % 256).toNat : Int) = v ↔ (0 ≤ v ∧ v ≤ 255)) := by
  refine ⟨get_int_eq self n p b0 b1 b2 b3 hp h0 h1 h2 h3 hb3, ?_, by omega⟩
  obtain ⟨pre, tags, -, -, hdec, hwalk⟩ :=
    encodeDecode_walkable address [.Int32 v] hlen hslash hnul hcomma
      (by simp [PushOp.Walkable])
  rw [payload_int32 address v] at hdec hwalk
  obtain ⟨dec, hdef⟩ : ∃ dec : OscMessage, dec = OscMessage.mk false address tags
      (pre ++ [toBits 32 v / 2 ^ 24 % 256, toBits 32 v / 2 ^ 16 % 256,
        toBits 32 v / 2 ^ 8 % 256, toBits 32 v % 256]) := ⟨_, rfl⟩
  rw [← hdef] at hdec hwalk
  have hdata : dec.m_data = pre ++ [toBits 32 v / 2 ^ 24 % 256, toBits 32 v / 2 ^ 16 % 256,
      toBits 32 v / 2 ^ 8 % 256, toBits 32 v % 256] := by rw [hdef]
  have hg0 := hwalk 0 (by simp)
  simp only [List.take_zero, List.map_nil, List.sum_nil, Nat.add_zero] at hg0
  have hget : ∀ i, dec.m_data[pre.length + i]? =
      [toBits 32 v / 2 ^ 24 % 256, toBits 32 v / 2 ^ 16 % 256, toBits 32 v / 2 ^ 8 % 256,
        toBits 32 v % 256][i]? := by
    intro i
    rw [hdata, List.getElem?_append_right (Nat.le_add_right _ _)]
    simp
  refine ⟨dec, hdec, ?_⟩
  rw [← toBits_mod v]
  exact get_int_eq dec 0 pre.length _ _ _ _ hg0 (by simpa using hget 0) (by simpa using hget 1)
    (by simpa using hget 2) (by simpa using hget 3) (Nat.mod_lt _ (by decide))

theorem get_int_low_byte_witness :
    (OscMessage.mk false [47, 97] [105] [47, 97, 0, 0, 44, 105, 0, 0, 18, 52, 86, 200]).get_int 0
        = .ok 200 ∧
      (∃ dec, encodeDecode [47, 97] [.Int32 (-2)] = .ok dec ∧
        dec.get_int 0 = .ok (((-2 : Int) % 256).toNat)) ∧
      ((((-2 : Int) % 256).toNat : Int) = -2 ↔ ((0 : Int) ≤ -2 ∧ (-2 : Int) ≤ 255)) :=
  get_int_low_byte
    (OscMessage.mk false [47, 97] [105] [47, 97, 0, 0, 44, 105, 0, 0, 18, 52, 86, 200])
    0 8 18 52 86 200 [47, 97] (-2) rfl rfl rfl rfl rfl (by decide) (by decide) rfl
    (by decide) (by decide) (by decide)

end hekky.osc
